import Mathlib

/-!
# Settings overlay of `state/settings.go`

A shallow embedding of the settings store (`src/state/settings.go`): the change
record `ItemChange`, the overlay `Settings` with its two snapshots `disk` and
`core`, the accessors, the diff computed by `Write`, and the lifecycle
functions `readSettings`, `createSettings`, `overwriteSettings` and
`removeSettings`.

Conventions of the embedding.

* A Go `map[string]V` is a table of entries (`Tbl V`) read with first-match
  lookup; every list denotes a map, and two tables are equal *as mappings* when
  all lookups agree (`Tbl.Same`).  A map that may be `nil` is an `Option`
  (`GoMap V`), `none` being the nil map.
* The order in which `range` visits the keys of a map is not fixed by Go.  Every
  function that ranges over a map takes the order as a parameter
  (`RangeOrder`), which may be any rearrangement of the keys.
* `interface{}` values are the type `Value`; `==` on them is `Value.goEq`,
  which has no result (a run-time panic) on two maps or two slices, and which is
  the IEEE 754 comparison on float64, given by bit pattern.
* A function that can panic returns `Except String _`, the string being the
  panic message.
* The document store behind `st.settings` and `st.runner` is a parameter
  (`Mongo σ`); `memMongo` is an in-memory instance of it.
* The overlay is embedded twice.  `Settings` holds the contents of `disk` and
  `core`; `SettingsRef` holds their addresses in a `Heap` of map objects, as Go
  maps are references.  The functions on references (`Ref.*`) return what the
  functions on contents return (`view_Set`, `view_Update`, `view_Delete`,
  `view_Map`, `view_Read`, `view_Write`), because the two maps of an overlay are
  never the same object (`Made.separate`).
-/

namespace JujuState

/-! ## Values and maps -/

/-- Whether the float64 with the given IEEE 754 bit pattern (taken modulo
`2 ^ 64`) is a NaN: all exponent bits set and a fraction that is not zero. -/
def F64.isNaN (bits : Nat) : Bool :=
  (bits % 2 ^ 64 / 2 ^ 52) % 2 ^ 11 == 2047 && !(bits % 2 ^ 52 == 0)

/-- Whether the float64 with the given bit pattern is `+0` or `-0`. -/
def F64.isZero (bits : Nat) : Bool := bits % 2 ^ 63 == 0

/-- Go `==` on two float64 values, given by their bit patterns: false when either
is a NaN, true on the two zeros, and otherwise equality of the bit patterns. -/
def F64.eq (a b : Nat) : Bool :=
  if F64.isNaN a || F64.isNaN b then false
  else if F64.isZero a && F64.isZero b then true
  else a % 2 ^ 64 == b % 2 ^ 64

/-- Dynamic values stored in an `interface{}`: the nil interface, booleans,
integers (`int`, `int64`), `float64` (by its IEEE 754 bit pattern), strings,
`map[string]interface{}` and `[]interface{}`. -/
inductive Value where
  | nil
  | bool (b : Bool)
  | int (i : Int)
  | int64 (i : Int)
  | float64 (bits : Nat)
  | str (s : String)
  | map (m : List (String × Value))
  | slice (l : List Value)

/-- Go `a == b` on two `interface{}` values.  Values of different dynamic type
are unequal; two values of the same comparable type are compared; two values of
the same uncomparable type (map, slice) make the comparison panic, which is
`none` here.  On float64 the comparison is the IEEE 754 one, so a NaN is not
equal to itself. -/
def Value.goEq : Value → Value → Option Bool
  | .nil, .nil => some true
  | .bool a, .bool b => some (a == b)
  | .int a, .int b => some (a == b)
  | .int64 a, .int64 b => some (a == b)
  | .float64 a, .float64 b => some (F64.eq a b)
  | .str a, .str b => some (a == b)
  | .map _, .map _ => none
  | .slice _, .slice _ => none
  | _, _ => some false

/-- Name of the dynamic type of a value, as the Go runtime prints it. -/
def Value.typeName : Value → String
  | .nil => "nil"
  | .bool _ => "bool"
  | .int _ => "int"
  | .int64 _ => "int64"
  | .float64 _ => "float64"
  | .str _ => "string"
  | .map _ => "map[string]interface {}"
  | .slice _ => "[]interface {}"

/-- Entries of a non-nil Go map with string keys. -/
abbrev Tbl (α : Type) := List (String × α)

/-- Lookup `m[k]` with the comma-ok result folded into an `Option`. -/
def Tbl.find {α : Type} : Tbl α → String → Option α
  | [], _ => none
  | (k', v) :: r, k => if k' = k then some v else Tbl.find r k

/-- Assignment `m[k] = v`. -/
def Tbl.set {α : Type} : Tbl α → String → α → Tbl α
  | [], k, v => [(k, v)]
  | (k', v') :: r, k, v => if k' = k then (k, v) :: r else (k', v') :: Tbl.set r k v

/-- Builtin `delete(m, k)`. -/
def Tbl.del {α : Type} (t : Tbl α) (k : String) : Tbl α :=
  t.filter (fun e => !(e.1 == k))

/-- The keys of a map, each once. -/
def Tbl.keys {α : Type} : Tbl α → List String
  | [] => []
  | (k, _) :: r => k :: (Tbl.keys r).filter (fun k' => !(k' == k))

/-- Equality of two maps as mappings. -/
def Tbl.Same {α : Type} (a b : Tbl α) : Prop := ∀ k, Tbl.find a k = Tbl.find b k

/-- A Go map value that may be nil. -/
abbrev GoMap (α : Type) := Option (Tbl α)

/-- Entries of a possibly nil map; a nil map reads as the empty map. -/
def GoMap.tbl {α : Type} (m : GoMap α) : Tbl α := m.getD []

/-- The comma-ok index expression `v, ok := m[k]` on a `map[string]interface{}`:
the zero value (nil) and `false` when the key is absent. -/
def index (m : GoMap Value) (k : String) : Value × Bool :=
  match Tbl.find m.tbl k with
  | some v => (v, true)
  | none => (Value.nil, false)

/-- An iteration order for `range` over a map: any rearrangement of the keys.
The order may differ from one key set to another. -/
structure RangeOrder where
  order : List String → List String
  perm : ∀ l, (order l).Perm l

/-- Iteration in the order the entries are stored. -/
def RangeOrder.stored : RangeOrder := ⟨fun l => l, fun l => List.Perm.refl l⟩

/-- Iteration in the opposite order. -/
def RangeOrder.reversed : RangeOrder := ⟨List.reverse, fun l => List.reverse_perm l⟩

/-- The keys visited by `for key := range m`, in visiting order. -/
def rangeKeys {α : Type} (ρ : RangeOrder) (m : GoMap α) : List String :=
  ρ.order (Tbl.keys m.tbl)

/-- Go `<` on strings (lexicographic). -/
def strLess (a b : String) : Bool := decide (a.toList < b.toList)

/-! ## Change records -/

/-- Constant `ItemAdded`. -/
def ItemAdded : Int := 0

/-- Constant `ItemModified`. -/
def ItemModified : Int := 1

/-- Constant `ItemDeleted`. -/
def ItemDeleted : Int := 2

/-- The struct `ItemChange`; the field `Type` is spelled `Typ`. -/
structure ItemChange where
  Typ : Int
  Key : String
  OldValue : Value
  NewValue : Value

/-- Method `itemChangeSlice.Less` on two elements. -/
def itemChangeSlice.Less (a b : ItemChange) : Bool := strLess a.Key b.Key

/-- Insertion of one record into a sorted slice, using only `Less`. -/
def itemChangeSlice.insert (x : ItemChange) : List ItemChange → List ItemChange
  | [] => [x]
  | y :: ys =>
    if itemChangeSlice.Less y x then y :: itemChangeSlice.insert x ys else x :: y :: ys

/-- The call `sort.Sort(itemChangeSlice(changes))`, as an insertion sort driven
by `Less`.  The algorithm of the standard library is not embedded: on a slice
with distinct keys every sorting algorithm returns the same slice
(`itemChangeSlice.eq_of_perm_of_sorted`), and the keys of `changes` are
distinct (`Write.nodup_changes`). -/
def itemChangeSlice.sort (l : List ItemChange) : List ItemChange :=
  l.foldr itemChangeSlice.insert []

/-- Insertion of a key into a sorted list of strings. -/
def insertString (x : String) : List String → List String
  | [] => [x]
  | y :: ys => if strLess y x then y :: insertString x ys else x :: y :: ys

/-- The call `sort.Strings(keys)`. -/
def sortStrings (l : List String) : List String := l.foldr insertString []

/-! ## The overlay -/

/-- The struct `Settings` without its `st` pointer: the store is passed to every
operation that uses it.  `core` is made by `make` or `copyMap` in every
constructor and is never nil; `disk` may be nil. -/
structure Settings where
  key : String
  disk : GoMap Value
  core : Tbl Value
  txnRevno : Int

/-- Method `Settings.Keys`. -/
def Settings.Keys (ρ : RangeOrder) (c : Settings) : List String :=
  sortStrings ((rangeKeys ρ (some c.core)).foldl (fun keys key => keys ++ [key]) [])

/-- Method `Settings.Get`. -/
def Settings.Get (c : Settings) (key : String) : Value × Bool :=
  index (some c.core) key

/-- Function `copyMap`. -/
def copyMap (ρ : RangeOrder) (m : GoMap Value) : Tbl Value :=
  (rangeKeys ρ m).foldl (fun out key => Tbl.set out key (index m key).1) []

/-- Method `Settings.Map`. -/
def Settings.Map (ρ : RangeOrder) (c : Settings) : Tbl Value :=
  copyMap ρ (some c.core)

/-- Method `Settings.Set`. -/
def Settings.Set (c : Settings) (key : String) (value : Value) : Settings :=
  { c with core := Tbl.set c.core key value }

/-- Method `Settings.Update`. -/
def Settings.Update (ρ : RangeOrder) (c : Settings) (kv : GoMap Value) : Settings :=
  (rangeKeys ρ kv).foldl (fun c key => { c with core := Tbl.set c.core key (index kv key).1 }) c

/-- Method `Settings.Delete`. -/
def Settings.Delete (c : Settings) (key : String) : Settings :=
  { c with core := Tbl.del c.core key }

/-- Function `cacheKeys`: the keys of all caches as a key=>true map. -/
def cacheKeys (ρ : RangeOrder) (caches : List (GoMap Value)) : Tbl Bool :=
  caches.foldl
    (fun keys cache => (rangeKeys ρ cache).foldl (fun keys key => Tbl.set keys key true) keys)
    []

/-- The locals `changes`, `updates` and `deletions` of `Write`. -/
structure Delta where
  changes : List ItemChange
  updates : Tbl Value
  deletions : Tbl Int

/-- One iteration of the loop of `Write` (lines 130-149) for `key`. -/
def Write.body (c : Settings) (acc : Delta) (key : String) : Except String Delta :=
  let old := (index c.disk key).1
  let ondisk := (index c.disk key).2
  let new := (index (some c.core) key).1
  let incore := (index (some c.core) key).2
  match Value.goEq new old with
  | none => .error ("runtime error: comparing uncomparable type " ++ new.typeName)
  | some true => .ok acc
  | some false =>
    if incore && ondisk then
      .ok ⟨acc.changes ++ [⟨ItemModified, key, old, new⟩], Tbl.set acc.updates key new,
        acc.deletions⟩
    else if incore && !ondisk then
      .ok ⟨acc.changes ++ [⟨ItemAdded, key, Value.nil, new⟩], Tbl.set acc.updates key new,
        acc.deletions⟩
    else if ondisk && !incore then
      .ok ⟨acc.changes ++ [⟨ItemDeleted, key, old, Value.nil⟩], acc.updates,
        Tbl.set acc.deletions key 1⟩
    else
      .error "unreachable"

/-- The loop of `Write` (lines 126-150): the diff between `disk` and `core`. -/
def Write.loop (ρ : RangeOrder) (c : Settings) : Except String Delta :=
  (rangeKeys ρ (some (cacheKeys ρ [c.disk, some c.core]))).foldlM (Write.body c) ⟨[], [], []⟩

/-! ## The document store -/

/-- Error values coming out of the mgo driver and the txn runner:
`txn.ErrAborted`, `mgo.ErrNotFound`, or any other error, kept by its message. -/
inductive DriverError where
  | ErrAborted
  | ErrNotFound
  | other (msg : String)

/-- Method `Error()` of a driver error, which is what `%v` prints. -/
def DriverError.Error : DriverError → String
  | .ErrAborted => "transaction aborted"
  | .ErrNotFound => "not found"
  | .other msg => msg

/-- Error values returned by the settings functions. -/
inductive SettingsError where
  | NotFound (what : String)
  | Errorf (msg : String)

/-- Modelled from the spec: the helper `notFound` is not in the given sources;
it builds the NotFound condition of the error taxonomy for the named thing. -/
def notFound (what : String) : SettingsError := SettingsError.NotFound what

/-- The assertion of a `txn.Op`. -/
inductive Assertion where
  | none
  | DocExists
  | DocMissing

/-- The `Update` field of a `txn.Op` as the settings code fills it: the pair
`D{{"$set", updates}, {"$unset", deletions}}`, or a bare map. -/
inductive UpdateDoc where
  | setUnset (updates : Tbl Value) (deletions : Tbl Int)
  | document (doc : Tbl Value)

/-- The struct `txn.Op`, with the fields the settings code uses. -/
structure Op where
  C : String
  Id : String
  Assert : Assertion
  Insert : Option (Tbl Value)
  Update : Option UpdateDoc

/-- Behaviour of the store behind `st.settings` and `st.runner`, over a store
state `σ`: `FindIdOne` is `st.settings.FindId(id).One(config)`, `Run` is
`st.runner.Run(ops, "", nil)`, `RemoveId` is `st.settings.RemoveId(id)`. -/
structure Mongo (σ : Type) where
  FindIdOne : σ → String → Except DriverError (Tbl Value)
  Run : σ → List Op → Option DriverError × σ
  RemoveId : σ → String → Option DriverError × σ

/-- What the settings code reaches through `*State`: the store state, the name of
the settings collection, and a journal of every operation list handed to the
runner, oldest first. -/
structure State (σ : Type) where
  db : σ
  settingsName : String
  journal : List (List Op)

/-- A call `st.runner.Run(ops, "", nil)`. -/
def State.run {σ : Type} (M : Mongo σ) (st : State σ) (ops : List Op) :
    Option DriverError × State σ :=
  ((M.Run st.db ops).1, { st with db := (M.Run st.db ops).2, journal := st.journal ++ [ops] })

/-- A call `st.settings.RemoveId(key)`. -/
def State.removeId {σ : Type} (M : Mongo σ) (st : State σ) (key : String) :
    Option DriverError × State σ :=
  ((M.RemoveId st.db key).1, { st with db := (M.RemoveId st.db key).2 })

/-- The operation list `Write` builds (lines 155-163). -/
def Write.ops {σ : Type} (st : State σ) (c : Settings) (d : Delta) : List Op :=
  [{ C := st.settingsName, Id := c.key, Assert := Assertion.DocExists, Insert := none,
     Update := some (UpdateDoc.setUnset d.updates d.deletions) }]

/-- Result of `Write`: the returned slice (`none` is the nil slice), the returned
error, the overlay and the store afterwards. -/
structure WriteResult (σ : Type) where
  changes : Option (List ItemChange)
  err : Option SettingsError
  c : Settings
  st : State σ

/-- Method `Settings.Write`. -/
def Settings.Write {σ : Type} (ρ : RangeOrder) (M : Mongo σ) (c : Settings) (st : State σ) :
    Except String (WriteResult σ) :=
  match Write.loop ρ c with
  | .error msg => .error msg
  | .ok d =>
    if d.changes.length = 0 then
      .ok ⟨some [], none, c, st⟩
    else
      let changes := itemChangeSlice.sort d.changes
      match State.run M st (Write.ops st c d) with
      | (some DriverError.ErrAborted, st') => .ok ⟨none, some (notFound "settings"), c, st'⟩
      | (some err, st') =>
        .ok ⟨none, some (SettingsError.Errorf ("cannot write settings: " ++ err.Error)), c, st'⟩
      | (none, st') => .ok ⟨some changes, none, { c with disk := some (copyMap ρ (some c.core)) }, st'⟩

/-- Function `newSettings`. -/
def newSettings (key : String) : Settings :=
  { key := key, disk := none, core := [], txnRevno := 0 }

/-- Function `cleanMap`. -/
def cleanMap (m : Tbl Value) : Tbl Value :=
  Tbl.del (Tbl.del (Tbl.del m "_id") "txn-revno") "txn-queue"

/-- Method `Settings.Read`: the returned error and the overlay afterwards. -/
def Settings.Read {σ : Type} (ρ : RangeOrder) (M : Mongo σ) (c : Settings) (st : State σ) :
    Except String (Option SettingsError × Settings) :=
  match M.FindIdOne st.db c.key with
  | .error DriverError.ErrNotFound =>
    .ok (some (notFound "settings"), { c with disk := none, core := [] })
  | .error err => .ok (some (SettingsError.Errorf ("cannot read settings: " ++ err.Error)), c)
  | .ok config =>
    match (index (some config) "txn-revno").1 with
    | Value.int64 revno =>
      .ok (none, { c with txnRevno := revno, disk := some (copyMap ρ (some (cleanMap config))),
                          core := copyMap ρ (some (cleanMap config)) })
    | v => .error ("interface conversion: interface {} is " ++ v.typeName ++ ", not int64")

/-- Function `readSettings`. -/
def readSettings {σ : Type} (ρ : RangeOrder) (M : Mongo σ) (st : State σ) (key : String) :
    Except String (Option Settings × Option SettingsError) :=
  match Settings.Read ρ M (newSettings key) st with
  | .error msg => .error msg
  | .ok (some err, _) => .ok (none, some err)
  | .ok (none, s) => .ok (some s, none)

/-- Result of a constructor that runs a transaction: the returned overlay, the
returned error, and the store afterwards. -/
structure MakeResult (σ : Type) where
  s : Option Settings
  err : Option SettingsError
  st : State σ

/-- The operation list `createSettings` builds (lines 222-227). -/
def createSettings.ops {σ : Type} (st : State σ) (s : Settings) : List Op :=
  [{ C := st.settingsName, Id := s.key, Assert := Assertion.DocMissing, Insert := some s.core,
     Update := none }]

/-- Function `createSettings`. -/
def createSettings {σ : Type} (ρ : RangeOrder) (M : Mongo σ) (st : State σ) (key : String)
    (values : GoMap Value) : MakeResult σ :=
  let s : Settings := { newSettings key with core := copyMap ρ values }
  match State.run M st (createSettings.ops st s) with
  | (some DriverError.ErrAborted, st') =>
    ⟨none, some (SettingsError.Errorf "cannot overwrite existing settings"), st'⟩
  | (some err, st') =>
    ⟨none, some (SettingsError.Errorf ("cannot create settings: " ++ err.Error)), st'⟩
  | (none, st') => ⟨some s, none, st'⟩

/-- The operation list `overwriteSettings` builds (lines 243-248). -/
def overwriteSettings.ops {σ : Type} (st : State σ) (s : Settings) : List Op :=
  [{ C := st.settingsName, Id := s.key, Assert := Assertion.DocExists, Insert := none,
     Update := some (UpdateDoc.document s.core) }]

/-- Function `overwriteSettings`. -/
def overwriteSettings {σ : Type} (ρ : RangeOrder) (M : Mongo σ) (st : State σ) (key : String)
    (values : GoMap Value) : MakeResult σ :=
  let s : Settings := { newSettings key with core := copyMap ρ values }
  match State.run M st (overwriteSettings.ops st s) with
  | (some DriverError.ErrAborted, st') => ⟨none, some (notFound "settings"), st'⟩
  | (some err, st') =>
    ⟨none, some (SettingsError.Errorf ("cannot update settings: " ++ err.Error)), st'⟩
  | (none, st') => ⟨some s, none, st'⟩

/-- Function `removeSettings`: the returned error and the store afterwards. -/
def removeSettings {σ : Type} (M : Mongo σ) (st : State σ) (key : String) :
    Option SettingsError × State σ :=
  match State.removeId M st key with
  | (some DriverError.ErrNotFound, st') => (some (notFound "settings"), st')
  | (_, st') => (none, st')

/-! ## An in-memory document store -/

/-- Modelled from the spec: the store as a map from key to document. -/
abbrev Coll := Tbl (Tbl Value)

/-- Modelled from the spec: the guard of a guarded operation (the store is an
external collaborator), exists / not-exists checked against the collection. -/
def Op.holds (coll : Coll) (op : Op) : Bool :=
  match op.Assert with
  | Assertion.none => true
  | Assertion.DocExists => (Tbl.find coll op.Id).isSome
  | Assertion.DocMissing => (Tbl.find coll op.Id).isNone

/-- Modelled from the spec: the field-level effect of an update, the update-set
merged into the document and the deletion-set removed from it. -/
def applySetUnset (doc : Tbl Value) (updates : Tbl Value) (deletions : Tbl Int) : Tbl Value :=
  deletions.foldr (fun e d => Tbl.del d e.1) (updates.foldr (fun e d => Tbl.set d e.1 e.2) doc)

/-- Modelled from the spec: the version counter a stored document carries among
its store-internal bookkeeping fields. -/
def docRevno (doc : Tbl Value) : Int :=
  match Tbl.find doc "txn-revno" with
  | some (Value.int64 r) => r
  | _ => 0

/-- Modelled from the spec: the store-internal bookkeeping fields (id, version
and queue markers) written along with the fields of a document. -/
def stamp (id : String) (revno : Int) (fields : Tbl Value) : Tbl Value :=
  Tbl.set (Tbl.set (Tbl.set fields "_id" (Value.str id)) "txn-revno" (Value.int64 revno))
    "txn-queue" (Value.slice [])

/-- Modelled from the spec: the effect of one guarded operation whose guard
holds: insert-if-absent, update-fields-if-present, replace-if-present. -/
def Op.apply (coll : Coll) (op : Op) : Coll :=
  match Tbl.find coll op.Id, op.Insert, op.Update with
  | none, some doc, _ => Tbl.set coll op.Id (stamp op.Id 2 doc)
  | some old, _, some (UpdateDoc.setUnset updates deletions) =>
    Tbl.set coll op.Id (stamp op.Id (docRevno old + 1) (applySetUnset old updates deletions))
  | some old, _, some (UpdateDoc.document doc) =>
    Tbl.set coll op.Id (stamp op.Id (docRevno old + 1) doc)
  | _, _, _ => coll

/-- Modelled from the spec: `runGuarded`, atomic with respect to the guards: the
operations are applied when every guard holds, and otherwise nothing is applied
and the outcome is the assertion failure `txn.ErrAborted`. -/
def memRun (coll : Coll) (ops : List Op) : Option DriverError × Coll :=
  if ops.all (Op.holds coll) then (none, ops.foldl Op.apply coll)
  else (some DriverError.ErrAborted, coll)

/-- Modelled from the spec: `fetch`, the document or NotFound. -/
def memFindIdOne (coll : Coll) (id : String) : Except DriverError (Tbl Value) :=
  match Tbl.find coll id with
  | some doc => .ok doc
  | none => .error DriverError.ErrNotFound

/-- Modelled from the spec: removal of a document by id, NotFound when absent. -/
def memRemoveId (coll : Coll) (id : String) : Option DriverError × Coll :=
  match Tbl.find coll id with
  | some _ => (none, Tbl.del coll id)
  | none => (some DriverError.ErrNotFound, coll)

/-- The in-memory store. -/
def memMongo : Mongo Coll := ⟨memFindIdOne, memRun, memRemoveId⟩

/-- A store state with the given documents and an empty journal. -/
def memState (coll : Coll) : State Coll := ⟨coll, "settings", []⟩

/-- The record the loop of `Write` appends for `key`, if any: the change list of
one iteration started from empty locals. -/
def Write.record (c : Settings) (key : String) : Option ItemChange :=
  match Write.body c ⟨[], [], []⟩ key with
  | .ok d => d.changes.head?
  | .error _ => none

/-- Whether the iteration of the loop of `Write` for `key` completes without a
panic. -/
def Write.stepOk (c : Settings) (key : String) : Bool :=
  match Write.body c ⟨[], [], []⟩ key with
  | .ok _ => true
  | .error _ => false

/-- The locals after the iteration for `key`, when it completes. -/
def Write.next (c : Settings) (acc : Delta) (key : String) : Delta :=
  match Write.body c acc key with
  | .ok d => d
  | .error _ => acc

/-- The value the loop of `Write` stages in the update-set for `key`, if any. -/
def Write.updateOf (c : Settings) (key : String) : Option Value :=
  match Write.record c key with
  | some ch => if ch.Typ = ItemDeleted then none else some ch.NewValue
  | none => none

/-- Whether the loop of `Write` stages `key` in the deletion-set. -/
def Write.deletes (c : Settings) (key : String) : Bool :=
  match Write.record c key with
  | some ch => decide (ch.Typ = ItemDeleted)
  | none => false

/-- The key universe the loop of `Write` ranges over, in visiting order. -/
def Write.universe (ρ : RangeOrder) (c : Settings) : List String :=
  rangeKeys ρ (some (cacheKeys ρ [c.disk, some c.core]))

/-! ## `Update` as the specification describes it -/

/-- The pairs of a map: each key once, with its value. -/
def GoMap.pairs (m : GoMap Value) : List (String × Value) :=
  (Tbl.keys m.tbl).map (fun k => (k, (index m k).1))

/-- The description of `Update` in the specification, to be compared with
`Settings.Update`: `Set` applied for every pair of a list of pairs, in the order
of the list. -/
def Settings.UpdateSpec (c : Settings) (pairs : List (String × Value)) : Settings :=
  pairs.foldl (fun c p => Settings.Set c p.1 p.2) c

/-! ## Example data -/

/-- A store holding, under the id `k`, the document `{a: 1, b: 2}`. -/
def Example.store12 : State Coll :=
  memState [("k", stamp "k" 2 [("a", Value.int 1), ("b", Value.int 2)])]

/-- The overlay read from `{a: 1, b: 2}` after `Set("b", 3)`, `Set("c", 4)` and
`Delete("a")`. -/
def Example.edited : Settings :=
  ⟨"k", some [("a", Value.int 1), ("b", Value.int 2)],
    [("b", Value.int 3), ("c", Value.int 4)], 2⟩

/-- A store holding, under the id `k`, a document with no fields. -/
def Example.storeEmptyDoc : State Coll := memState [("k", stamp "k" 2 [])]

/-- A store on which `RemoveId` fails with an error other than not-found and
removes nothing; fetching and running transactions are those of the in-memory
store. -/
def Example.failingRemove : Mongo Coll :=
  ⟨memFindIdOne, memRun, fun coll _ => (some (DriverError.other "EOF"), coll)⟩

/-! ## The two maps as references

In the source `disk` and `core` are Go maps, which are references to map objects:
two fields holding the same reference would see each other's writes.  This
section embeds the functions of the file once more with the map objects in a
heap and the fields holding addresses, so that which object a statement writes,
and which objects a field can refer to, is part of the model.  Values stored in
a map stay immutable: no statement of the file writes into a stored value. -/

/-- The map objects allocated so far; the address of a map is its position. -/
structure Heap where
  objs : List (Tbl Value)

/-- The contents of the map at an address. -/
def Heap.read (h : Heap) (a : Nat) : Tbl Value := h.objs.getD a []

/-- A write to the map at an address: `m[k] = v` and `delete(m, k)` replace the
contents of the object `m` refers to, and of no other. -/
def Heap.write (h : Heap) (a : Nat) (t : Tbl Value) : Heap := ⟨h.objs.set a t⟩

/-- Allocation of a new map object (`make`, a map literal): its address and the
heap afterwards. -/
def Heap.alloc (h : Heap) (t : Tbl Value) : Nat × Heap := (h.objs.length, ⟨h.objs ++ [t]⟩)

/-- The struct `Settings` with its two maps as the source has them: `disk` is
nil or the address of a map, `core` is the address of a map. -/
structure SettingsRef where
  key : String
  disk : Option Nat
  core : Nat
  txnRevno : Int

/-- The overlay a struct denotes in a heap: each map read through its address. -/
def SettingsRef.view (c : SettingsRef) (h : Heap) : Settings :=
  ⟨c.key, c.disk.map h.read, h.read c.core, c.txnRevno⟩

/-- Method `Settings.Get` (line 76): a read of the map `c.core` refers to. -/
def Ref.Get (h : Heap) (c : SettingsRef) (key : String) : Value × Bool :=
  index (some (h.read c.core)) key

/-- Method `Settings.Keys` (lines 66-71): a read of the map `c.core` refers to. -/
def Ref.Keys (ρ : RangeOrder) (h : Heap) (c : SettingsRef) : List String :=
  sortStrings ((rangeKeys ρ (some (h.read c.core))).foldl (fun keys key => keys ++ [key]) [])

/-- Method `Settings.Set` (line 87): a write to the map `c.core` refers to; no
field of the struct is assigned. -/
def Ref.Set (h : Heap) (c : SettingsRef) (key : String) (value : Value) : Heap :=
  h.write c.core (Tbl.set (h.read c.core) key value)

/-- Method `Settings.Update` (lines 92-94): one write to the map `c.core` refers
to for every key of `kv`, which is only read. -/
def Ref.Update (ρ : RangeOrder) (h : Heap) (c : SettingsRef) (kv : GoMap Value) : Heap :=
  (rangeKeys ρ kv).foldl
    (fun h key => h.write c.core (Tbl.set (h.read c.core) key (index kv key).1)) h

/-- Method `Settings.Delete` (line 99): a write to the map `c.core` refers to. -/
def Ref.Delete (h : Heap) (c : SettingsRef) (key : String) : Heap :=
  h.write c.core (Tbl.del (h.read c.core) key)

/-- Function `copyMap` (lines 103-108): a new map is made and every entry of
`in`, which is only read, is written to it; the result is the address of the new
map. -/
def Ref.copyMap (ρ : RangeOrder) (h : Heap) (m : GoMap Value) : Nat × Heap :=
  ((h.alloc []).1,
    (rangeKeys ρ m).foldl
      (fun h' key =>
        h'.write (h.alloc []).1 (Tbl.set (h'.read (h.alloc []).1) key (index m key).1))
      (h.alloc []).2)

/-- Method `Settings.Map` (line 82): the address of a copy of the map `c.core`
refers to. -/
def Ref.Map (ρ : RangeOrder) (h : Heap) (c : SettingsRef) : Nat × Heap :=
  Ref.copyMap ρ h (some (h.read c.core))

/-- Function `newSettings` (lines 175-181): `core` is a new map, `disk` is nil. -/
def Ref.newSettings (h : Heap) (key : String) : SettingsRef × Heap :=
  (⟨key, none, (h.alloc []).1, 0⟩, (h.alloc []).2)

/-- Result of `Write` on references: the returned slice and error, the heap, the
struct and the store afterwards. -/
structure Ref.WriteResult (σ : Type) where
  changes : Option (List ItemChange)
  err : Option SettingsError
  h : Heap
  c : SettingsRef
  st : State σ

/-- Method `Settings.Write` (lines 125-173).  The loop only reads the two maps;
on success line 171 assigns to `c.disk` the address of a copy of the map `c.core`
refers to. -/
def Ref.Write {σ : Type} (ρ : RangeOrder) (M : Mongo σ) (h : Heap) (c : SettingsRef)
    (st : State σ) : Except String (Ref.WriteResult σ) :=
  match Write.loop ρ (c.view h) with
  | .error msg => .error msg
  | .ok d =>
    if d.changes.length = 0 then
      .ok ⟨some [], none, h, c, st⟩
    else
      let changes := itemChangeSlice.sort d.changes
      match State.run M st (Write.ops st (c.view h) d) with
      | (some DriverError.ErrAborted, st') => .ok ⟨none, some (notFound "settings"), h, c, st'⟩
      | (some err, st') =>
        .ok ⟨none, some (SettingsError.Errorf ("cannot write settings: " ++ err.Error)), h, c,
          st'⟩
      | (none, st') =>
        .ok ⟨some changes, none, (Ref.copyMap ρ h (some (h.read c.core))).2,
          { c with disk := some (Ref.copyMap ρ h (some (h.read c.core))).1 }, st'⟩

/-- Method `Settings.Read` (lines 191-207): the returned error, the struct and
the heap afterwards.  When the document is absent `disk` becomes nil and `core` a
new map; when it is present `disk` and `core` become the addresses of two copies
of the cleaned document. -/
def Ref.Read {σ : Type} (ρ : RangeOrder) (M : Mongo σ) (h : Heap) (c : SettingsRef)
    (st : State σ) : Except String (Option SettingsError × SettingsRef × Heap) :=
  match M.FindIdOne st.db c.key with
  | .error DriverError.ErrNotFound =>
    .ok (some (notFound "settings"), { c with disk := none, core := (h.alloc []).1 },
      (h.alloc []).2)
  | .error err =>
    .ok (some (SettingsError.Errorf ("cannot read settings: " ++ err.Error)), c, h)
  | .ok config =>
    match (index (some config) "txn-revno").1 with
    | Value.int64 revno =>
      .ok (none,
        { c with txnRevno := revno,
                 disk := some (Ref.copyMap ρ h (some (cleanMap config))).1,
                 core := (Ref.copyMap ρ (Ref.copyMap ρ h (some (cleanMap config))).2
                   (some (cleanMap config))).1 },
        (Ref.copyMap ρ (Ref.copyMap ρ h (some (cleanMap config))).2
          (some (cleanMap config))).2)
    | v => .error ("interface conversion: interface {} is " ++ v.typeName ++ ", not int64")

/-- Result of a constructor on references: the returned struct and error, the
heap and the store afterwards. -/
structure Ref.MakeResult (σ : Type) where
  s : Option SettingsRef
  err : Option SettingsError
  h : Heap
  st : State σ

/-- The struct `createSettings` and `overwriteSettings` build before they run
their transaction (lines 220-221, 241-242): `newSettings`, then `core` becomes
the address of a copy of `values`. -/
def Ref.fresh (ρ : RangeOrder) (h : Heap) (key : String) (values : GoMap Value) :
    SettingsRef × Heap :=
  ({ (Ref.newSettings h key).1 with
      core := (Ref.copyMap ρ (Ref.newSettings h key).2 values).1 },
    (Ref.copyMap ρ (Ref.newSettings h key).2 values).2)

/-- Function `createSettings` (lines 219-236). -/
def Ref.createSettings {σ : Type} (ρ : RangeOrder) (M : Mongo σ) (h : Heap) (st : State σ)
    (key : String) (values : GoMap Value) : Ref.MakeResult σ :=
  match State.run M st
      (createSettings.ops st ((Ref.fresh ρ h key values).1.view (Ref.fresh ρ h key values).2)) with
  | (some DriverError.ErrAborted, st') =>
    ⟨none, some (SettingsError.Errorf "cannot overwrite existing settings"),
      (Ref.fresh ρ h key values).2, st'⟩
  | (some err, st') =>
    ⟨none, some (SettingsError.Errorf ("cannot create settings: " ++ err.Error)),
      (Ref.fresh ρ h key values).2, st'⟩
  | (none, st') => ⟨some (Ref.fresh ρ h key values).1, none, (Ref.fresh ρ h key values).2, st'⟩

/-- Function `overwriteSettings` (lines 240-257). -/
def Ref.overwriteSettings {σ : Type} (ρ : RangeOrder) (M : Mongo σ) (h : Heap) (st : State σ)
    (key : String) (values : GoMap Value) : Ref.MakeResult σ :=
  match State.run M st
      (overwriteSettings.ops st
        ((Ref.fresh ρ h key values).1.view (Ref.fresh ρ h key values).2)) with
  | (some DriverError.ErrAborted, st') =>
    ⟨none, some (notFound "settings"), (Ref.fresh ρ h key values).2, st'⟩
  | (some err, st') =>
    ⟨none, some (SettingsError.Errorf ("cannot update settings: " ++ err.Error)),
      (Ref.fresh ρ h key values).2, st'⟩
  | (none, st') => ⟨some (Ref.fresh ρ h key values).1, none, (Ref.fresh ρ h key values).2, st'⟩

/-- Function `readSettings` (lines 210-216): the returned struct and error, and
the heap afterwards. -/
def Ref.readSettings {σ : Type} (ρ : RangeOrder) (M : Mongo σ) (h : Heap) (st : State σ)
    (key : String) : Except String (Option SettingsRef × Option SettingsError × Heap) :=
  match Ref.Read ρ M (Ref.newSettings h key).2 (Ref.newSettings h key).1 st with
  | .error msg => .error msg
  | .ok (some err, _, h') => .ok (none, some err, h')
  | .ok (none, s, h') => .ok (some s, none, h')

/-- The overlays that the functions of the file build and change, each with the
heap it lives in: built by `newSettings`, `createSettings` or
`overwriteSettings`; then closed under `Read`, `Write`, `Set`, `Update`,
`Delete` and `Map`, under the allocation of other maps, and under writes to maps
other than its own two (the addresses of its two maps are not handed out by any
function of the file). -/
inductive Made : Heap → SettingsRef → Prop where
  | newSettings (h : Heap) (key : String) :
      Made (Ref.newSettings h key).2 (Ref.newSettings h key).1
  | createSettings {σ : Type} (ρ : RangeOrder) (M : Mongo σ) (h : Heap) (st : State σ)
      (key : String) (values : GoMap Value) (c : SettingsRef) :
      (Ref.createSettings ρ M h st key values).s = some c →
      Made (Ref.createSettings ρ M h st key values).h c
  | overwriteSettings {σ : Type} (ρ : RangeOrder) (M : Mongo σ) (h : Heap) (st : State σ)
      (key : String) (values : GoMap Value) (c : SettingsRef) :
      (Ref.overwriteSettings ρ M h st key values).s = some c →
      Made (Ref.overwriteSettings ρ M h st key values).h c
  | read {σ : Type} (ρ : RangeOrder) (M : Mongo σ) (h : Heap) (c : SettingsRef) (st : State σ)
      (e : Option SettingsError) (c' : SettingsRef) (h' : Heap) :
      Made h c → Ref.Read ρ M h c st = .ok (e, c', h') → Made h' c'
  | write {σ : Type} (ρ : RangeOrder) (M : Mongo σ) (h : Heap) (c : SettingsRef) (st : State σ)
      (r : Ref.WriteResult σ) :
      Made h c → Ref.Write ρ M h c st = .ok r → Made r.h r.c
  | set (h : Heap) (c : SettingsRef) (key : String) (value : Value) :
      Made h c → Made (Ref.Set h c key value) c
  | update (ρ : RangeOrder) (h : Heap) (c : SettingsRef) (kv : GoMap Value) :
      Made h c → Made (Ref.Update ρ h c kv) c
  | delete (h : Heap) (c : SettingsRef) (key : String) :
      Made h c → Made (Ref.Delete h c key) c
  | map (ρ : RangeOrder) (h : Heap) (c : SettingsRef) :
      Made h c → Made (Ref.Map ρ h c).2 c
  | alloc (h : Heap) (c : SettingsRef) (t : Tbl Value) :
      Made h c → Made (h.alloc t).2 c
  | elsewhere (h : Heap) (c : SettingsRef) (a : Nat) (t : Tbl Value) :
      Made h c → a ≠ c.core → c.disk ≠ some a → Made (h.write a t) c

/-- The two maps of a struct are allocated and are not the same map. -/
def Heap.Separate (h : Heap) (c : SettingsRef) : Prop :=
  c.core < h.objs.length ∧ ∀ a, c.disk = some a → a < h.objs.length ∧ a ≠ c.core

/-! ## Lemmas on maps -/

theorem Tbl.find_set {α : Type} (t : Tbl α) (k : String) (v : α) (k' : String) :
    Tbl.find (Tbl.set t k v) k' = if k = k' then some v else Tbl.find t k' := by
  induction t with
  | nil => simp [Tbl.set, Tbl.find]
  | cons e r ih =>
    obtain ⟨k0, v0⟩ := e
    by_cases h : k0 = k
    · subst h
      by_cases h' : k0 = k' <;> simp [Tbl.set, Tbl.find, h']
    · by_cases h' : k0 = k'
      · subst h'
        have hk : ¬ k = k0 := fun e => h e.symm
        simp [Tbl.set, Tbl.find, h, hk]
      · simp [Tbl.set, Tbl.find, h, h', ih]

theorem Tbl.find_del {α : Type} (t : Tbl α) (k k' : String) :
    Tbl.find (Tbl.del t k) k' = if k = k' then none else Tbl.find t k' := by
  unfold Tbl.del
  induction t with
  | nil => simp [Tbl.find]
  | cons e r ih =>
    obtain ⟨k0, v0⟩ := e
    by_cases h : k0 = k
    · subst h
      by_cases h' : k0 = k'
      · simpa [List.filter_cons, h'] using ih
      · simpa [List.filter_cons, Tbl.find, h'] using ih
    · by_cases h' : k0 = k'
      · subst h'
        have hk : ¬ k = k0 := fun e => h e.symm
        simp [List.filter_cons, Tbl.find, h, hk]
      · simpa [List.filter_cons, Tbl.find, h, h'] using ih

theorem Tbl.mem_keys {α : Type} (t : Tbl α) (k : String) :
    k ∈ Tbl.keys t ↔ (Tbl.find t k).isSome = true := by
  induction t with
  | nil => simp [Tbl.keys, Tbl.find]
  | cons e r ih =>
    obtain ⟨k0, v0⟩ := e
    by_cases h : k0 = k
    · subst h
      simp [Tbl.keys, Tbl.find]
    · have hk : ¬ k = k0 := fun e => h e.symm
      simp [Tbl.keys, Tbl.find, h, hk, ih]

theorem Tbl.nodup_keys {α : Type} (t : Tbl α) : (Tbl.keys t).Nodup := by
  induction t with
  | nil => simp [Tbl.keys]
  | cons e r ih =>
    obtain ⟨k0, v0⟩ := e
    simp only [Tbl.keys, List.nodup_cons]
    refine ⟨?_, ih.filter _⟩
    simp

theorem mem_rangeKeys {α : Type} (ρ : RangeOrder) (m : GoMap α) (k : String) :
    k ∈ rangeKeys ρ m ↔ k ∈ Tbl.keys m.tbl :=
  (ρ.perm _).mem_iff

theorem nodup_rangeKeys {α : Type} (ρ : RangeOrder) (m : GoMap α) : (rangeKeys ρ m).Nodup :=
  (ρ.perm _).nodup_iff.2 (Tbl.nodup_keys _)

theorem rangeKeys_perm {α : Type} (ρ ρ' : RangeOrder) (m : GoMap α) :
    (rangeKeys ρ m).Perm (rangeKeys ρ' m) :=
  (ρ.perm _).trans (ρ'.perm _).symm

theorem find_foldl_set {α : Type} (f : String → α) (l : List String) (init : Tbl α)
    (k : String) :
    Tbl.find (l.foldl (fun out key => Tbl.set out key (f key)) init) k =
      if k ∈ l then some (f k) else Tbl.find init k := by
  induction l generalizing init with
  | nil => simp
  | cons a l ih =>
    simp only [List.foldl_cons, ih, Tbl.find_set, List.mem_cons]
    by_cases h1 : k ∈ l
    · simp [h1]
    · by_cases h2 : a = k
      · subst h2
        simp [h1]
      · have h3 : ¬ k = a := fun e => h2 e.symm
        simp [h1, h2, h3]

theorem index_fst_of_mem (m : GoMap Value) (k : String) (h : k ∈ Tbl.keys m.tbl) :
    some (index m k).1 = Tbl.find m.tbl k := by
  have h' := (Tbl.mem_keys _ _).1 h
  unfold index
  cases hf : Tbl.find m.tbl k with
  | none => simp [hf] at h'
  | some v => rfl

theorem find_copyMap (ρ : RangeOrder) (m : GoMap Value) (k : String) :
    Tbl.find (copyMap ρ m) k = Tbl.find m.tbl k := by
  unfold copyMap
  rw [find_foldl_set]
  by_cases h : k ∈ rangeKeys ρ m
  · rw [if_pos h]
    exact index_fst_of_mem m k ((mem_rangeKeys ρ m k).1 h)
  · rw [if_neg h]
    have h' : ¬ k ∈ Tbl.keys m.tbl := fun e => h ((mem_rangeKeys ρ m k).2 e)
    rw [Tbl.mem_keys] at h'
    cases hf : Tbl.find m.tbl k with
    | none => rfl
    | some v => simp [hf] at h'

theorem copyMap_same (ρ : RangeOrder) (t : Tbl Value) : Tbl.Same (copyMap ρ (some t)) t :=
  fun k => find_copyMap ρ (some t) k

theorem index_congr (a b : GoMap Value) (h : ∀ k, Tbl.find a.tbl k = Tbl.find b.tbl k)
    (k : String) : index a k = index b k := by
  unfold index
  rw [h k]

theorem mem_keys_cacheKeys (ρ : RangeOrder) (a b : GoMap Value) (k : String) :
    k ∈ Tbl.keys (cacheKeys ρ [a, b]) ↔ k ∈ Tbl.keys a.tbl ∨ k ∈ Tbl.keys b.tbl := by
  rw [Tbl.mem_keys]
  simp only [cacheKeys, List.foldl_cons, List.foldl_nil]
  rw [find_foldl_set (fun _ => true), find_foldl_set (fun _ => true)]
  simp only [mem_rangeKeys]
  by_cases h1 : k ∈ Tbl.keys b.tbl
  · simp [h1]
  · by_cases h2 : k ∈ Tbl.keys a.tbl
    · simp [h1, h2]
    · simp [h1, h2, Tbl.find]

/-! ## Lemmas on the loop of `Write` -/

theorem Write.body_of_stepOk (c : Settings) (acc : Delta) (key : String)
    (h : Write.stepOk c key = true) : Write.body c acc key = .ok (Write.next c acc key) := by
  unfold Write.stepOk Write.body at h
  unfold Write.next Write.body
  cases hg : Value.goEq (index (some c.core) key).1 (index c.disk key).1 with
  | none => simp [hg] at h
  | some b =>
    cases b with
    | true => simp [hg]
    | false =>
      simp only [hg] at h ⊢
      cases hn : (index (some c.core) key).2 <;> cases ho : (index c.disk key).2 <;>
        simp [hn, ho] at h ⊢

theorem Write.body_of_not_stepOk (c : Settings) (acc : Delta) (key : String)
    (h : Write.stepOk c key = false) : ∃ msg, Write.body c acc key = .error msg := by
  unfold Write.stepOk Write.body at h
  unfold Write.body
  cases hg : Value.goEq (index (some c.core) key).1 (index c.disk key).1 with
  | none => simp [hg]
  | some b =>
    cases b with
    | true => simp [hg] at h
    | false =>
      simp only [hg] at h ⊢
      cases hn : (index (some c.core) key).2 <;> cases ho : (index c.disk key).2 <;>
        simp [hn, ho] at h ⊢

theorem Write.foldlM_body (c : Settings) (l : List String) (acc : Delta)
    (h : ∀ key ∈ l, Write.stepOk c key = true) :
    l.foldlM (Write.body c) acc = .ok (l.foldl (Write.next c) acc) := by
  induction l generalizing acc with
  | nil => rfl
  | cons a l ih =>
    rw [List.foldlM_cons, Write.body_of_stepOk c acc a (h a (List.mem_cons_self a l))]
    exact ih _ (fun key hk => h key (List.mem_cons_of_mem a hk))

theorem Write.foldlM_body_ok (c : Settings) (l : List String) (acc d : Delta)
    (h : l.foldlM (Write.body c) acc = .ok d) :
    (∀ key ∈ l, Write.stepOk c key = true) ∧ d = l.foldl (Write.next c) acc := by
  induction l generalizing acc with
  | nil =>
    refine ⟨by simp, ?_⟩
    have h' : (Except.ok acc : Except String Delta) = .ok d := h
    injection h' with h'
    exact h'.symm
  | cons a l ih =>
    rw [List.foldlM_cons] at h
    cases hs : Write.stepOk c a with
    | false =>
      obtain ⟨msg, hm⟩ := Write.body_of_not_stepOk c acc a hs
      rw [hm] at h
      cases h
    | true =>
      rw [Write.body_of_stepOk c acc a hs] at h
      obtain ⟨h1, h2⟩ := ih _ h
      refine ⟨?_, h2⟩
      intro key hk
      rcases List.mem_cons.1 hk with rfl | hk
      · exact hs
      · exact h1 key hk

/-- The four ways an iteration of the loop that does not panic can go. -/
theorem Write.step_cases (c : Settings) (acc : Delta) (key : String)
    (h : Write.stepOk c key = true) :
    (Value.goEq (index (some c.core) key).1 (index c.disk key).1 = some true ∧
      Write.record c key = none ∧ Write.next c acc key = acc) ∨
    (Value.goEq (index (some c.core) key).1 (index c.disk key).1 = some false ∧
      (index (some c.core) key).2 = true ∧ (index c.disk key).2 = true ∧
      Write.record c key =
        some ⟨ItemModified, key, (index c.disk key).1, (index (some c.core) key).1⟩ ∧
      Write.next c acc key =
        ⟨acc.changes ++ [⟨ItemModified, key, (index c.disk key).1, (index (some c.core) key).1⟩],
          Tbl.set acc.updates key (index (some c.core) key).1, acc.deletions⟩) ∨
    (Value.goEq (index (some c.core) key).1 (index c.disk key).1 = some false ∧
      (index (some c.core) key).2 = true ∧ (index c.disk key).2 = false ∧
      Write.record c key = some ⟨ItemAdded, key, Value.nil, (index (some c.core) key).1⟩ ∧
      Write.next c acc key =
        ⟨acc.changes ++ [⟨ItemAdded, key, Value.nil, (index (some c.core) key).1⟩],
          Tbl.set acc.updates key (index (some c.core) key).1, acc.deletions⟩) ∨
    (Value.goEq (index (some c.core) key).1 (index c.disk key).1 = some false ∧
      (index (some c.core) key).2 = false ∧ (index c.disk key).2 = true ∧
      Write.record c key = some ⟨ItemDeleted, key, (index c.disk key).1, Value.nil⟩ ∧
      Write.next c acc key =
        ⟨acc.changes ++ [⟨ItemDeleted, key, (index c.disk key).1, Value.nil⟩],
          acc.updates, Tbl.set acc.deletions key 1⟩) := by
  unfold Write.stepOk Write.body at h
  unfold Write.next Write.record Write.body
  cases hg : Value.goEq (index (some c.core) key).1 (index c.disk key).1 with
  | none => simp [hg] at h
  | some b =>
    cases b with
    | true => simp [hg]
    | false =>
      simp only [hg] at h ⊢
      cases hn : (index (some c.core) key).2 <;> cases ho : (index c.disk key).2 <;>
        simp [hn, ho] at h ⊢

/-- An iteration that panics appends nothing. -/
theorem Write.step_panic (c : Settings) (acc : Delta) (key : String)
    (h : Write.stepOk c key = false) :
    Write.record c key = none ∧ Write.next c acc key = acc := by
  obtain ⟨msg, hm⟩ := Write.body_of_not_stepOk c acc key h
  obtain ⟨msg0, hm0⟩ := Write.body_of_not_stepOk c ⟨[], [], []⟩ key h
  unfold Write.record Write.next
  rw [hm, hm0]
  exact ⟨rfl, rfl⟩

theorem Write.next_changes (c : Settings) (acc : Delta) (key : String) :
    (Write.next c acc key).changes = acc.changes ++ (Write.record c key).toList := by
  cases hs : Write.stepOk c key with
  | false =>
    obtain ⟨h1, h2⟩ := Write.step_panic c acc key hs
    simp [h1, h2]
  | true =>
    rcases Write.step_cases c acc key hs with h | h | h | h
    · simp [h.2.1, h.2.2]
    · simp [h.2.2.2.1, h.2.2.2.2]
    · simp [h.2.2.2.1, h.2.2.2.2]
    · simp [h.2.2.2.1, h.2.2.2.2]

theorem Write.next_updates (c : Settings) (acc : Delta) (key k : String) :
    Tbl.find (Write.next c acc key).updates k =
      if key = k then
        (match Write.updateOf c key with
          | some v => some v
          | none => Tbl.find acc.updates k)
      else Tbl.find acc.updates k := by
  unfold Write.updateOf
  cases hs : Write.stepOk c key with
  | false =>
    obtain ⟨h1, h2⟩ := Write.step_panic c acc key hs
    simp [h1, h2]
  | true =>
    rcases Write.step_cases c acc key hs with h | h | h | h
    · simp [h.2.1, h.2.2]
    · simp [h.2.2.2.1, h.2.2.2.2, Tbl.find_set, ItemModified, ItemDeleted]
    · simp [h.2.2.2.1, h.2.2.2.2, Tbl.find_set, ItemAdded, ItemDeleted]
    · simp [h.2.2.2.1, h.2.2.2.2, ItemDeleted]

theorem Write.next_deletions (c : Settings) (acc : Delta) (key k : String) :
    Tbl.find (Write.next c acc key).deletions k =
      if key = k ∧ Write.deletes c key = true then some 1 else Tbl.find acc.deletions k := by
  unfold Write.deletes
  cases hs : Write.stepOk c key with
  | false =>
    obtain ⟨h1, h2⟩ := Write.step_panic c acc key hs
    simp [h1, h2]
  | true =>
    rcases Write.step_cases c acc key hs with h | h | h | h
    · simp [h.2.1, h.2.2]
    · simp [h.2.2.2.1, h.2.2.2.2, ItemModified, ItemDeleted]
    · simp [h.2.2.2.1, h.2.2.2.2, ItemAdded, ItemDeleted]
    · simp [h.2.2.2.1, h.2.2.2.2, Tbl.find_set, ItemDeleted]

theorem Write.foldl_changes (c : Settings) (l : List String) (acc : Delta) :
    (l.foldl (Write.next c) acc).changes = acc.changes ++ l.filterMap (Write.record c) := by
  induction l generalizing acc with
  | nil => simp
  | cons a l ih =>
    rw [List.foldl_cons, ih, Write.next_changes]
    cases hr : Write.record c a <;> simp [List.filterMap_cons, hr]

theorem Write.foldl_updates (c : Settings) (l : List String) (acc : Delta) (k : String) :
    Tbl.find (l.foldl (Write.next c) acc).updates k =
      if k ∈ l then
        (match Write.updateOf c k with
          | some v => some v
          | none => Tbl.find acc.updates k)
      else Tbl.find acc.updates k := by
  induction l generalizing acc with
  | nil => simp
  | cons a l ih =>
    rw [List.foldl_cons, ih, Write.next_updates]
    by_cases h1 : a = k
    · subst h1
      by_cases h2 : a ∈ l
      · cases hu : Write.updateOf c a <;> simp [h2]
      · cases hu : Write.updateOf c a <;> simp [h2]
    · have h3 : ¬ k = a := fun e => h1 e.symm
      simp [h1, h3]

theorem Write.foldl_deletions (c : Settings) (l : List String) (acc : Delta) (k : String) :
    Tbl.find (l.foldl (Write.next c) acc).deletions k =
      if k ∈ l ∧ Write.deletes c k = true then some 1 else Tbl.find acc.deletions k := by
  induction l generalizing acc with
  | nil => simp
  | cons a l ih =>
    rw [List.foldl_cons, ih, Write.next_deletions]
    by_cases h1 : a = k
    · subst h1
      by_cases h2 : a ∈ l
      · cases hu : Write.deletes c a <;> simp [h2]
      · cases hu : Write.deletes c a <;> simp [h2]
    · have h3 : ¬ k = a := fun e => h1 e.symm
      simp [h1, h3]

theorem Write.record_key (c : Settings) (key : String) (ch : ItemChange)
    (h : Write.record c key = some ch) : ch.Key = key := by
  cases hs : Write.stepOk c key with
  | false => simp [(Write.step_panic c ⟨[], [], []⟩ key hs).1] at h
  | true =>
    rcases Write.step_cases c ⟨[], [], []⟩ key hs with h' | h' | h' | h'
    · simp [h'.2.1] at h
    · rw [h'.2.2.2.1] at h
      injection h with h
      rw [← h]
    · rw [h'.2.2.2.1] at h
      injection h with h
      rw [← h]
    · rw [h'.2.2.2.1] at h
      injection h with h
      rw [← h]

/-- A key that is in neither map yields no record. -/
theorem Write.record_absent (c : Settings) (key : String)
    (hd : Tbl.find c.disk.tbl key = none) (hc : Tbl.find c.core key = none) :
    Write.record c key = none := by
  have hc' : Tbl.find (GoMap.tbl (some c.core)) key = none := hc
  unfold Write.record Write.body index
  simp [hd, hc', Value.goEq]

theorem Write.mem_universe (ρ : RangeOrder) (c : Settings) (k : String) :
    k ∈ Write.universe ρ c ↔
      (Tbl.find c.disk.tbl k).isSome = true ∨ (Tbl.find c.core k).isSome = true := by
  unfold Write.universe
  rw [mem_rangeKeys]
  have h := mem_keys_cacheKeys ρ c.disk (some c.core) k
  rw [← Tbl.mem_keys, ← Tbl.mem_keys]
  exact h

theorem Write.record_of_not_mem (ρ : RangeOrder) (c : Settings) (k : String)
    (h : ¬ k ∈ Write.universe ρ c) : Write.record c k = none := by
  rw [Write.mem_universe] at h
  apply Write.record_absent
  · cases hf : Tbl.find c.disk.tbl k with
    | none => rfl
    | some v => simp [hf] at h
  · cases hf : Tbl.find c.core k with
    | none => rfl
    | some v => simp [hf] at h

theorem Write.nodup_universe (ρ : RangeOrder) (c : Settings) : (Write.universe ρ c).Nodup :=
  nodup_rangeKeys ρ _

theorem Write.universe_perm (ρ ρ' : RangeOrder) (c : Settings) :
    (Write.universe ρ c).Perm (Write.universe ρ' c) := by
  have h1 := Write.nodup_universe ρ c
  have h2 := Write.nodup_universe ρ' c
  apply (List.perm_ext_iff_of_nodup h1 h2).2
  intro k
  rw [Write.mem_universe, Write.mem_universe]

/-- What the loop of `Write` leaves in its locals when it completes. -/
theorem Write.loop_ok (ρ : RangeOrder) (c : Settings) (d : Delta)
    (h : Write.loop ρ c = .ok d) :
    (∀ key ∈ Write.universe ρ c, Write.stepOk c key = true) ∧
    d.changes = (Write.universe ρ c).filterMap (Write.record c) ∧
    (∀ k, Tbl.find d.updates k = Write.updateOf c k) ∧
    (∀ k, Tbl.find d.deletions k = if Write.deletes c k = true then some 1 else none) := by
  obtain ⟨h1, h2⟩ := Write.foldlM_body_ok c (Write.universe ρ c) ⟨[], [], []⟩ d h
  refine ⟨h1, ?_, ?_, ?_⟩
  · rw [h2, Write.foldl_changes]
    rfl
  · intro k
    rw [h2, Write.foldl_updates]
    by_cases hk : k ∈ Write.universe ρ c
    · cases hu : Write.updateOf c k <;> simp [hk, Tbl.find]
    · have hr := Write.record_of_not_mem ρ c k hk
      simp [hk, Write.updateOf, hr, Tbl.find]
  · intro k
    rw [h2, Write.foldl_deletions]
    by_cases hk : k ∈ Write.universe ρ c
    · simp [hk, Tbl.find]
    · have hr := Write.record_of_not_mem ρ c k hk
      simp [hk, Write.deletes, hr, Tbl.find]

/-- The loop of `Write` completes exactly when no iteration panics. -/
theorem Write.loop_of_stepOk (ρ : RangeOrder) (c : Settings)
    (h : ∀ key ∈ Write.universe ρ c, Write.stepOk c key = true) :
    Write.loop ρ c = .ok ((Write.universe ρ c).foldl (Write.next c) ⟨[], [], []⟩) :=
  Write.foldlM_body c _ _ h

/-- A record is in the change list of the loop exactly when it is the record of
its key. -/
theorem Write.mem_changes (ρ : RangeOrder) (c : Settings) (d : Delta)
    (h : Write.loop ρ c = .ok d) (ch : ItemChange) :
    ch ∈ d.changes ↔ Write.record c ch.Key = some ch := by
  rw [(Write.loop_ok ρ c d h).2.1, List.mem_filterMap]
  constructor
  · rintro ⟨k, _, hk⟩
    rw [Write.record_key c k ch hk]
    exact hk
  · intro hr
    refine ⟨ch.Key, ?_, hr⟩
    by_contra hn
    rw [Write.record_of_not_mem ρ c ch.Key hn] at hr
    cases hr

/-! ## Lemmas on sorting -/

theorem strLess_iff (a b : String) : strLess a b = true ↔ a < b := by
  simp [strLess, String.lt_iff_toList_lt]

theorem itemChangeSlice.insert_perm (x : ItemChange) (l : List ItemChange) :
    (itemChangeSlice.insert x l).Perm (x :: l) := by
  induction l with
  | nil => exact List.Perm.refl _
  | cons y ys ih =>
    unfold itemChangeSlice.insert
    by_cases h : itemChangeSlice.Less y x = true
    · rw [if_pos h]
      exact (List.Perm.cons y ih).trans (List.Perm.swap x y ys)
    · rw [if_neg h]

theorem itemChangeSlice.sort_perm (l : List ItemChange) : (itemChangeSlice.sort l).Perm l := by
  induction l with
  | nil => exact List.Perm.refl _
  | cons x xs ih =>
    have h : itemChangeSlice.sort (x :: xs) = itemChangeSlice.insert x (itemChangeSlice.sort xs) :=
      rfl
    rw [h]
    exact (itemChangeSlice.insert_perm x _).trans (List.Perm.cons x ih)

theorem itemChangeSlice.insert_sorted (x : ItemChange) (l : List ItemChange)
    (hs : l.Pairwise (fun a b => a.Key < b.Key)) (hx : ∀ y ∈ l, y.Key ≠ x.Key) :
    (itemChangeSlice.insert x l).Pairwise (fun a b => a.Key < b.Key) := by
  induction l with
  | nil => simp [itemChangeSlice.insert]
  | cons y ys ih =>
    obtain ⟨hy, hys⟩ := List.pairwise_cons.1 hs
    unfold itemChangeSlice.insert
    by_cases h : itemChangeSlice.Less y x = true
    · rw [if_pos h]
      have hlt : y.Key < x.Key := (strLess_iff _ _).1 h
      refine List.pairwise_cons.2 ⟨?_, ih hys (fun z hz => hx z (List.mem_cons_of_mem y hz))⟩
      intro z hz
      rcases List.mem_cons.1 ((itemChangeSlice.insert_perm x ys).mem_iff.1 hz) with rfl | hz
      · exact hlt
      · exact hy z hz
    · rw [if_neg h]
      have hnlt : ¬ y.Key < x.Key := fun e => h ((strLess_iff _ _).2 e)
      have hne : y.Key ≠ x.Key := hx y (List.mem_cons_self y ys)
      have hlt : x.Key < y.Key := lt_of_le_of_ne (not_lt.1 hnlt) (fun e => hne e.symm)
      refine List.pairwise_cons.2 ⟨?_, hs⟩
      intro z hz
      rcases List.mem_cons.1 hz with rfl | hz
      · exact hlt
      · exact lt_trans hlt (hy z hz)

theorem itemChangeSlice.sort_sorted (l : List ItemChange) (hn : (l.map ItemChange.Key).Nodup) :
    (itemChangeSlice.sort l).Pairwise (fun a b => a.Key < b.Key) := by
  induction l with
  | nil => simp [itemChangeSlice.sort]
  | cons x xs ih =>
    have h : itemChangeSlice.sort (x :: xs) = itemChangeSlice.insert x (itemChangeSlice.sort xs) :=
      rfl
    rw [h]
    rw [List.map_cons, List.nodup_cons] at hn
    apply itemChangeSlice.insert_sorted x _ (ih hn.2)
    intro y hy hk
    apply hn.1
    rw [← hk]
    exact List.mem_map_of_mem _ ((itemChangeSlice.sort_perm xs).mem_iff.1 hy)

/-- Two strictly ascending lists with the same elements are the same list. -/
theorem itemChangeSlice.eq_of_perm_of_sorted (l l' : List ItemChange) (hp : l.Perm l')
    (hs : l.Pairwise (fun a b => a.Key < b.Key)) (hs' : l'.Pairwise (fun a b => a.Key < b.Key)) :
    l = l' := by
  haveI : IsAntisymm ItemChange (fun a b => a.Key < b.Key) :=
    ⟨fun a b h1 h2 => absurd h2 (lt_asymm h1)⟩
  exact List.eq_of_perm_of_sorted hp hs hs'

theorem itemChangeSlice.sort_eq_of_perm (l l' : List ItemChange) (hp : l.Perm l')
    (hn : (l.map ItemChange.Key).Nodup) : itemChangeSlice.sort l = itemChangeSlice.sort l' := by
  have hn' : (l'.map ItemChange.Key).Nodup := (hp.map _).nodup_iff.1 hn
  exact itemChangeSlice.eq_of_perm_of_sorted _ _
    (((itemChangeSlice.sort_perm l).trans hp).trans (itemChangeSlice.sort_perm l').symm)
    (itemChangeSlice.sort_sorted l hn) (itemChangeSlice.sort_sorted l' hn')

theorem Write.map_key_filterMap (c : Settings) (l : List String) :
    (l.filterMap (Write.record c)).map ItemChange.Key =
      l.filter (fun k => (Write.record c k).isSome) := by
  induction l with
  | nil => rfl
  | cons a l ih =>
    cases hr : Write.record c a with
    | none => simp [List.filterMap_cons, List.filter_cons, hr, ih]
    | some ch => simp [List.filterMap_cons, List.filter_cons, hr, ih, Write.record_key c a ch hr]

theorem Write.nodup_changes (ρ : RangeOrder) (c : Settings) (d : Delta)
    (h : Write.loop ρ c = .ok d) : (d.changes.map ItemChange.Key).Nodup := by
  rw [(Write.loop_ok ρ c d h).2.1, Write.map_key_filterMap]
  exact (Write.nodup_universe ρ c).filter _

/-- The sorted change list does not depend on the iteration order. -/
theorem Write.sort_changes_eq (ρ ρ' : RangeOrder) (c : Settings) (d d' : Delta)
    (h : Write.loop ρ c = .ok d) (h' : Write.loop ρ' c = .ok d') :
    itemChangeSlice.sort d.changes = itemChangeSlice.sort d'.changes := by
  apply itemChangeSlice.sort_eq_of_perm _ _ _ (Write.nodup_changes ρ c d h)
  rw [(Write.loop_ok ρ c d h).2.1, (Write.loop_ok ρ' c d' h').2.1]
  exact (Write.universe_perm ρ ρ' c).filterMap _

/-- Whether the loop completes does not depend on the iteration order. -/
theorem Write.loop_order (ρ ρ' : RangeOrder) (c : Settings) (d : Delta)
    (h : Write.loop ρ c = .ok d) : ∃ d', Write.loop ρ' c = .ok d' := by
  refine ⟨_, Write.loop_of_stepOk ρ' c ?_⟩
  intro key hk
  exact (Write.loop_ok ρ c d h).1 key ((Write.universe_perm ρ ρ' c).mem_iff.2 hk)

/-! ## Lemmas on `Write` -/

theorem Write.body_congr (c c' : Settings) (acc : Delta) (key : String)
    (hd : ∀ k, Tbl.find c.disk.tbl k = Tbl.find c'.disk.tbl k)
    (hc : ∀ k, Tbl.find c.core k = Tbl.find c'.core k) :
    Write.body c acc key = Write.body c' acc key := by
  have h1 : index c.disk key = index c'.disk key := index_congr _ _ hd key
  have h2 : index (some c.core) key = index (some c'.core) key :=
    index_congr (some c.core) (some c'.core) hc key
  unfold Write.body
  rw [h1, h2]

theorem Write.record_congr (c c' : Settings) (key : String)
    (hd : ∀ k, Tbl.find c.disk.tbl k = Tbl.find c'.disk.tbl k)
    (hc : ∀ k, Tbl.find c.core k = Tbl.find c'.core k) :
    Write.record c key = Write.record c' key := by
  unfold Write.record
  rw [Write.body_congr c c' _ key hd hc]

theorem Write.stepOk_congr (c c' : Settings) (key : String)
    (hd : ∀ k, Tbl.find c.disk.tbl k = Tbl.find c'.disk.tbl k)
    (hc : ∀ k, Tbl.find c.core k = Tbl.find c'.core k) :
    Write.stepOk c key = Write.stepOk c' key := by
  unfold Write.stepOk
  rw [Write.body_congr c c' _ key hd hc]

/-- The loop of `Write` reads the two maps only as mappings: on overlays whose
maps agree as mappings, and under any two iteration orders, it completes on both
or on neither, with the same sorted change list. -/
theorem Write.loop_congr (ρ ρ' : RangeOrder) (c c' : Settings)
    (hd : ∀ k, Tbl.find c.disk.tbl k = Tbl.find c'.disk.tbl k)
    (hc : ∀ k, Tbl.find c.core k = Tbl.find c'.core k) (d : Delta)
    (h : Write.loop ρ c = .ok d) :
    ∃ d', Write.loop ρ' c' = .ok d' ∧
      itemChangeSlice.sort d'.changes = itemChangeSlice.sort d.changes := by
  have hp : (Write.universe ρ c).Perm (Write.universe ρ' c') := by
    apply (List.perm_ext_iff_of_nodup (Write.nodup_universe ρ c) (Write.nodup_universe ρ' c')).2
    intro k
    rw [Write.mem_universe, Write.mem_universe, hd k, hc k]
  have hr : Write.record c = Write.record c' := funext (fun k => Write.record_congr c c' k hd hc)
  have hok : ∀ key ∈ Write.universe ρ' c', Write.stepOk c' key = true := by
    intro key hk
    rw [← Write.stepOk_congr c c' key hd hc]
    exact (Write.loop_ok ρ c d h).1 key (hp.mem_iff.2 hk)
  have h' := Write.loop_of_stepOk ρ' c' hok
  refine ⟨_, h', ?_⟩
  apply itemChangeSlice.sort_eq_of_perm _ _ _ (Write.nodup_changes ρ' c' _ h')
  rw [(Write.loop_ok ρ' c' _ h').2.1, (Write.loop_ok ρ c d h).2.1, hr]
  exact (hp.symm).filterMap _

theorem itemChangeSlice.sort_eq_nil (l : List ItemChange) :
    itemChangeSlice.sort l = [] ↔ l = [] := by
  constructor
  · intro h
    have hp := itemChangeSlice.sort_perm l
    rw [h] at hp
    exact List.perm_nil.1 hp.symm
  · intro h
    rw [h]
    rfl

theorem Write_panic {σ : Type} (ρ : RangeOrder) (M : Mongo σ) (c : Settings) (st : State σ)
    (msg : String) (h : Write.loop ρ c = .error msg) :
    Settings.Write ρ M c st = .error msg := by
  unfold Settings.Write
  rw [h]

theorem Write_noop {σ : Type} (ρ : RangeOrder) (M : Mongo σ) (c : Settings) (st : State σ)
    (d : Delta) (h : Write.loop ρ c = .ok d) (he : d.changes = []) :
    Settings.Write ρ M c st = .ok ⟨some [], none, c, st⟩ := by
  unfold Settings.Write
  rw [h]
  simp [he]

theorem Write_success {σ : Type} (ρ : RangeOrder) (M : Mongo σ) (c : Settings) (st : State σ)
    (d : Delta) (h : Write.loop ρ c = .ok d) (hne : d.changes ≠ [])
    (hrun : (M.Run st.db (Write.ops st c d)).1 = none) :
    Settings.Write ρ M c st =
      .ok ⟨some (itemChangeSlice.sort d.changes), none,
        { c with disk := some (copyMap ρ (some c.core)) },
        ⟨(M.Run st.db (Write.ops st c d)).2, st.settingsName,
          st.journal ++ [Write.ops st c d]⟩⟩ := by
  unfold Settings.Write
  rw [h]
  have hl : ¬ d.changes.length = 0 := fun e => hne (List.length_eq_zero.1 e)
  simp only [hl, if_false, State.run, hrun]

theorem Write_aborted {σ : Type} (ρ : RangeOrder) (M : Mongo σ) (c : Settings) (st : State σ)
    (d : Delta) (h : Write.loop ρ c = .ok d) (hne : d.changes ≠ [])
    (hrun : (M.Run st.db (Write.ops st c d)).1 = some DriverError.ErrAborted) :
    Settings.Write ρ M c st =
      .ok ⟨none, some (notFound "settings"), c,
        ⟨(M.Run st.db (Write.ops st c d)).2, st.settingsName,
          st.journal ++ [Write.ops st c d]⟩⟩ := by
  unfold Settings.Write
  rw [h]
  have hl : ¬ d.changes.length = 0 := fun e => hne (List.length_eq_zero.1 e)
  simp only [hl, if_false, State.run, hrun]

theorem Write_failed {σ : Type} (ρ : RangeOrder) (M : Mongo σ) (c : Settings) (st : State σ)
    (d : Delta) (h : Write.loop ρ c = .ok d) (hne : d.changes ≠ []) (err : DriverError)
    (hrun : (M.Run st.db (Write.ops st c d)).1 = some err) (he : err ≠ DriverError.ErrAborted) :
    Settings.Write ρ M c st =
      .ok ⟨none, some (SettingsError.Errorf ("cannot write settings: " ++ err.Error)), c,
        ⟨(M.Run st.db (Write.ops st c d)).2, st.settingsName,
          st.journal ++ [Write.ops st c d]⟩⟩ := by
  unfold Settings.Write
  rw [h]
  have hl : ¬ d.changes.length = 0 := fun e => hne (List.length_eq_zero.1 e)
  cases err with
  | ErrAborted => exact absurd rfl he
  | ErrNotFound => simp only [hl, if_false, State.run, hrun]
  | other msg => simp only [hl, if_false, State.run, hrun]

theorem GoMap.tbl_some {α : Type} (t : Tbl α) : GoMap.tbl (some t) = t := rfl

/-- The record of a key, read off the two maps: Modified when the key is in both
with values that compare unequal, Added when it is only in `core` with a value
that compares unequal to nil, Deleted when it is only in `disk` with a value that
compares unequal to nil, and none otherwise. -/
theorem Write.record_iff (c : Settings) (k : String) (ch : ItemChange) :
    Write.record c k = some ch ↔
      (∃ o n, Tbl.find c.disk.tbl k = some o ∧ Tbl.find c.core k = some n ∧
        Value.goEq n o = some false ∧ ch = ⟨ItemModified, k, o, n⟩) ∨
      (∃ n, Tbl.find c.disk.tbl k = none ∧ Tbl.find c.core k = some n ∧
        Value.goEq n Value.nil = some false ∧ ch = ⟨ItemAdded, k, Value.nil, n⟩) ∨
      (∃ o, Tbl.find c.disk.tbl k = some o ∧ Tbl.find c.core k = none ∧
        Value.goEq Value.nil o = some false ∧ ch = ⟨ItemDeleted, k, o, Value.nil⟩) := by
  unfold Write.record Write.body index
  rw [GoMap.tbl_some]
  cases hd : Tbl.find c.disk.tbl k with
  | none =>
    cases hc : Tbl.find c.core k with
    | none => simp [Value.goEq]
    | some n =>
      cases hg : Value.goEq n Value.nil with
      | none => simp [hg]
      | some b => cases b <;> simp [hg, eq_comm]
  | some o =>
    cases hc : Tbl.find c.core k with
    | none =>
      cases hg : Value.goEq Value.nil o with
      | none => simp [hg]
      | some b => cases b <;> simp [hg, eq_comm]
    | some n =>
      cases hg : Value.goEq n o with
      | none => simp [hg]
      | some b => cases b <;> simp [hg, eq_comm]


theorem Write.updateOf_iff (c : Settings) (k : String) (v : Value) :
    Write.updateOf c k = some v ↔
      ∃ ch, Write.record c k = some ch ∧ (ch.Typ = ItemAdded ∨ ch.Typ = ItemModified) ∧
        Tbl.find c.core k = some v := by
  unfold Write.updateOf
  cases hr : Write.record c k with
  | none => simp
  | some ch =>
    rcases (Write.record_iff c k ch).1 hr with ⟨o, n, _, hc, _, he⟩ | ⟨n, _, hc, _, he⟩ |
      ⟨o, _, hc, _, he⟩
    · subst he
      simp [hc, ItemModified, ItemDeleted]
    · subst he
      simp [hc, ItemAdded, ItemDeleted]
    · subst he
      simp [hc, ItemAdded, ItemModified, ItemDeleted]

theorem Write.deletes_iff (c : Settings) (k : String) :
    Write.deletes c k = true ↔ ∃ ch, Write.record c k = some ch ∧ ch.Typ = ItemDeleted := by
  unfold Write.deletes
  cases hr : Write.record c k <;> simp

theorem find_foldr_set (updates doc : Tbl Value) (k : String) :
    Tbl.find (updates.foldr (fun e d => Tbl.set d e.1 e.2) doc) k =
      match Tbl.find updates k with
      | some v => some v
      | none => Tbl.find doc k := by
  induction updates with
  | nil => rfl
  | cons e r ih =>
    obtain ⟨k0, v0⟩ := e
    rw [List.foldr_cons, Tbl.find_set, ih]
    by_cases h : k0 = k <;> simp [Tbl.find, h]

theorem find_foldr_del (deletions : Tbl Int) (doc : Tbl Value) (k : String) :
    Tbl.find (deletions.foldr (fun e d => Tbl.del d e.1) doc) k =
      if (Tbl.find deletions k).isSome = true then none else Tbl.find doc k := by
  induction deletions with
  | nil => rfl
  | cons e r ih =>
    obtain ⟨k0, v0⟩ := e
    rw [List.foldr_cons, Tbl.find_del, ih]
    by_cases h : k0 = k <;> simp [Tbl.find, h]

/-- The field-level effect of an update on one field. -/
theorem find_applySetUnset (doc updates : Tbl Value) (deletions : Tbl Int) (k : String) :
    Tbl.find (applySetUnset doc updates deletions) k =
      if (Tbl.find deletions k).isSome = true then none
      else match Tbl.find updates k with
        | some v => some v
        | none => Tbl.find doc k := by
  unfold applySetUnset
  rw [find_foldr_del, find_foldr_set]

/-- The three ways `Write` can return. -/
theorem Write_ok_cases {σ : Type} (ρ : RangeOrder) (M : Mongo σ) (c : Settings) (st : State σ)
    (r : WriteResult σ) (h : Settings.Write ρ M c st = .ok r) :
    ∃ d, Write.loop ρ c = .ok d ∧
      ((d.changes = [] ∧ r = ⟨some [], none, c, st⟩) ∨
       (d.changes ≠ [] ∧ (M.Run st.db (Write.ops st c d)).1 = none ∧
          r = ⟨some (itemChangeSlice.sort d.changes), none,
            { c with disk := some (copyMap ρ (some c.core)) },
            ⟨(M.Run st.db (Write.ops st c d)).2, st.settingsName,
              st.journal ++ [Write.ops st c d]⟩⟩) ∨
       (d.changes ≠ [] ∧ (∃ err, (M.Run st.db (Write.ops st c d)).1 = some err) ∧
          r.changes = none ∧ r.err ≠ none ∧ r.c = c)) := by
  cases hloop : Write.loop ρ c with
  | error msg =>
    rw [Write_panic ρ M c st msg hloop] at h
    cases h
  | ok d =>
    refine ⟨d, rfl, ?_⟩
    by_cases he : d.changes = []
    · rw [Write_noop ρ M c st d hloop he] at h
      injection h with h
      exact Or.inl ⟨he, h.symm⟩
    · cases hrun : (M.Run st.db (Write.ops st c d)).1 with
      | some err =>
        refine Or.inr (Or.inr ⟨he, ⟨err, rfl⟩, ?_⟩)
        by_cases ha : err = DriverError.ErrAborted
        · rw [ha] at hrun
          rw [Write_aborted ρ M c st d hloop he hrun] at h
          injection h with h
          rw [← h]
          exact ⟨rfl, by simp, rfl⟩
        · rw [Write_failed ρ M c st d hloop he err hrun ha] at h
          injection h with h
          rw [← h]
          exact ⟨rfl, by simp, rfl⟩
      | none =>
        rw [Write_success ρ M c st d hloop he hrun] at h
        injection h with h
        exact Or.inr (Or.inl ⟨he, rfl, h.symm⟩)

/-- A `Write` that returns without an error returns the sorted change list of its
loop. -/
theorem Write_ok_changes {σ : Type} (ρ : RangeOrder) (M : Mongo σ) (c : Settings)
    (st : State σ) (r : WriteResult σ) (h : Settings.Write ρ M c st = .ok r)
    (hs : r.err = none) :
    ∃ d, Write.loop ρ c = .ok d ∧ r.changes = some (itemChangeSlice.sort d.changes) := by
  obtain ⟨d, hd, h1 | h2 | h3⟩ := Write_ok_cases ρ M c st r h
  · refine ⟨d, hd, ?_⟩
    rw [h1.2, h1.1]
    rfl
  · refine ⟨d, hd, ?_⟩
    rw [h2.2.2]
  · exact absurd hs h3.2.2.2.1

/-! ## Lemmas on the constructors -/

theorem RangeOrder.order_nil (ρ : RangeOrder) : ρ.order [] = [] :=
  List.perm_nil.1 (ρ.perm [])

theorem RangeOrder.order_singleton (ρ : RangeOrder) (k : String) : ρ.order [k] = [k] :=
  List.perm_singleton.1 (ρ.perm [k])

theorem copyMap_empty (ρ : RangeOrder) (m : GoMap Value) (h : m.tbl = []) : copyMap ρ m = [] := by
  unfold copyMap rangeKeys
  rw [h]
  simp [Tbl.keys, RangeOrder.order_nil]

theorem Write.loop_empty (ρ : RangeOrder) (c : Settings) (hd : c.disk = none) (hc : c.core = []) :
    Write.loop ρ c = .ok ⟨[], [], []⟩ := by
  unfold Write.loop cacheKeys rangeKeys
  rw [hd, hc]
  simp [GoMap.tbl, Tbl.keys, RangeOrder.order_nil]
  rfl

theorem overwrite_ne_create (cause : String) :
    "cannot overwrite existing settings" ≠ "cannot create settings: " ++ cause := by
  intro h
  have h' := congrArg String.data h
  rw [String.data_append] at h'
  simp at h'

theorem overwrite_ne_write (cause : String) :
    "cannot overwrite existing settings" ≠ "cannot write settings: " ++ cause := by
  intro h
  have h' := congrArg String.data h
  rw [String.data_append] at h'
  simp at h'

theorem copyMap_singleton (ρ : RangeOrder) (k : String) (v : Value) :
    copyMap ρ (some [(k, v)]) = [(k, v)] := by
  unfold copyMap rangeKeys
  simp [GoMap.tbl, Tbl.keys, RangeOrder.order_singleton, index, Tbl.find, Tbl.set]

/-! ## Lemmas on reading and on the accessors -/

theorem find_cleanMap (doc : Tbl Value) (k : String) :
    Tbl.find (cleanMap doc) k =
      if k = "_id" ∨ k = "txn-revno" ∨ k = "txn-queue" then none else Tbl.find doc k := by
  unfold cleanMap
  rw [Tbl.find_del, Tbl.find_del, Tbl.find_del]
  by_cases h1 : "txn-queue" = k
  · simp [h1.symm]
  · by_cases h2 : "txn-revno" = k
    · simp [h2.symm]
    · by_cases h3 : "_id" = k
      · simp [h3.symm]
      · have e1 : ¬ k = "txn-queue" := fun e => h1 e.symm
        have e2 : ¬ k = "txn-revno" := fun e => h2 e.symm
        have e3 : ¬ k = "_id" := fun e => h3 e.symm
        simp [h1, h2, h3, e1, e2, e3]

theorem index_of_find (m : GoMap Value) (k : String) (v : Value)
    (h : Tbl.find m.tbl k = some v) : index m k = (v, true) := by
  unfold index
  rw [h]

theorem Read_found {σ : Type} (ρ : RangeOrder) (M : Mongo σ) (c : Settings) (st : State σ)
    (doc : Tbl Value) (r : Int) (hf : M.FindIdOne st.db c.key = .ok doc)
    (hr : Tbl.find doc "txn-revno" = some (Value.int64 r)) :
    Settings.Read ρ M c st =
      .ok (none, { c with txnRevno := r, disk := some (copyMap ρ (some (cleanMap doc))),
                          core := copyMap ρ (some (cleanMap doc)) }) := by
  have hi : (index (some doc) "txn-revno").1 = Value.int64 r := by
    rw [index_of_find (some doc) "txn-revno" (Value.int64 r) hr]
  unfold Settings.Read
  rw [hf]
  simp only [hi]

theorem Read_absent {σ : Type} (ρ : RangeOrder) (M : Mongo σ) (c : Settings) (st : State σ)
    (hf : M.FindIdOne st.db c.key = .error DriverError.ErrNotFound) :
    Settings.Read ρ M c st =
      .ok (some (notFound "settings"), { c with disk := none, core := [] }) := by
  unfold Settings.Read
  rw [hf]

theorem F64.eq_comm (a b : Nat) : F64.eq a b = F64.eq b a := by
  unfold F64.eq
  have h : (a % 2 ^ 64 == b % 2 ^ 64) = (b % 2 ^ 64 == a % 2 ^ 64) := BEq.comm
  rw [h]
  cases F64.isNaN a <;> cases F64.isNaN b <;> cases F64.isZero a <;> cases F64.isZero b <;> rfl

/-- The comparison `==` gives the same result with its operands swapped. -/
theorem Value.goEq_comm (a b : Value) : Value.goEq a b = Value.goEq b a := by
  cases a <;> cases b <;> simp [Value.goEq, F64.eq_comm, eq_comm]

theorem F64.eq_self (a : Nat) : F64.eq a a = !F64.isNaN a := by
  unfold F64.eq
  cases hn : F64.isNaN a <;> cases hz : F64.isZero a <;> simp

/-- The comparison `==` is false on a value and itself only for a float64 NaN. -/
theorem Value.goEq_self_false (a : Value) (h : Value.goEq a a = some false) :
    ∃ bits, a = Value.float64 bits ∧ F64.isNaN bits = true := by
  cases a with
  | float64 f =>
    refine ⟨f, rfl, ?_⟩
    simp only [Value.goEq, F64.eq_self] at h
    cases hn : F64.isNaN f with
    | true => rfl
    | false => simp [hn] at h
  | nil => simp [Value.goEq] at h
  | bool b => simp [Value.goEq] at h
  | int i => simp [Value.goEq] at h
  | int64 i => simp [Value.goEq] at h
  | str x => simp [Value.goEq] at h
  | map m => simp [Value.goEq] at h
  | slice l => simp [Value.goEq] at h

/-- Two values on which `==` is false are different values, unless both are one
and the same float64 NaN. -/
theorem Value.goEq_false_ne_or_nan (a b : Value) (h : Value.goEq a b = some false) :
    a ≠ b ∨ ∃ bits, a = Value.float64 bits ∧ b = Value.float64 bits ∧
      F64.isNaN bits = true := by
  by_cases e : a = b
  · subst e
    obtain ⟨bits, h1, h2⟩ := Value.goEq_self_false a h
    exact Or.inr ⟨bits, h1, h1, h2⟩
  · exact Or.inl e

theorem insertString_perm (x : String) (l : List String) :
    (insertString x l).Perm (x :: l) := by
  induction l with
  | nil => exact List.Perm.refl _
  | cons y ys ih =>
    unfold insertString
    by_cases h : strLess y x = true
    · rw [if_pos h]
      exact (List.Perm.cons y ih).trans (List.Perm.swap x y ys)
    · rw [if_neg h]

theorem sortStrings_perm (l : List String) : (sortStrings l).Perm l := by
  induction l with
  | nil => exact List.Perm.refl _
  | cons x xs ih =>
    have h : sortStrings (x :: xs) = insertString x (sortStrings xs) := rfl
    rw [h]
    exact (insertString_perm x _).trans (List.Perm.cons x ih)

theorem insertString_sorted (x : String) (l : List String)
    (hs : l.Pairwise (fun a b => a < b)) (hx : ¬ x ∈ l) :
    (insertString x l).Pairwise (fun a b => a < b) := by
  induction l with
  | nil => simp [insertString]
  | cons y ys ih =>
    obtain ⟨hy, hys⟩ := List.pairwise_cons.1 hs
    unfold insertString
    by_cases h : strLess y x = true
    · rw [if_pos h]
      have hlt : y < x := (strLess_iff _ _).1 h
      refine List.pairwise_cons.2 ⟨?_, ih hys (fun hz => hx (List.mem_cons_of_mem y hz))⟩
      intro z hz
      rcases List.mem_cons.1 ((insertString_perm x ys).mem_iff.1 hz) with rfl | hz
      · exact hlt
      · exact hy z hz
    · rw [if_neg h]
      have hnlt : ¬ y < x := fun e => h ((strLess_iff _ _).2 e)
      have hne : x ≠ y := fun e => hx (e ▸ List.mem_cons_self x ys)
      have hlt : x < y := lt_of_le_of_ne (not_lt.1 hnlt) hne
      refine List.pairwise_cons.2 ⟨?_, hs⟩
      intro z hz
      rcases List.mem_cons.1 hz with rfl | hz
      · exact hlt
      · exact lt_trans hlt (hy z hz)

theorem sortStrings_sorted (l : List String) (hn : l.Nodup) :
    (sortStrings l).Pairwise (fun a b => a < b) := by
  induction l with
  | nil => simp [sortStrings]
  | cons x xs ih =>
    have h : sortStrings (x :: xs) = insertString x (sortStrings xs) := rfl
    rw [h]
    rw [List.nodup_cons] at hn
    apply insertString_sorted x _ (ih hn.2)
    intro hx
    exact hn.1 ((sortStrings_perm xs).mem_iff.1 hx)

theorem foldl_append_singleton (l init : List String) :
    l.foldl (fun keys key => keys ++ [key]) init = init ++ l := by
  induction l generalizing init with
  | nil => simp
  | cons a l ih => rw [List.foldl_cons, ih]; simp

theorem Keys_eq (ρ : RangeOrder) (c : Settings) :
    Settings.Keys ρ c = sortStrings (rangeKeys ρ (some c.core)) := by
  unfold Settings.Keys
  rw [foldl_append_singleton]
  rfl

theorem Tbl.del_of_find_none {α : Type} (t : Tbl α) (k : String) (h : Tbl.find t k = none) :
    Tbl.del t k = t := by
  unfold Tbl.del
  induction t with
  | nil => rfl
  | cons e r ih =>
    obtain ⟨k0, v0⟩ := e
    by_cases hk : k0 = k
    · subst hk
      simp [Tbl.find] at h
    · have hr : Tbl.find r k = none := by
        simpa [Tbl.find, hk] using h
      simp [List.filter_cons, hk, ih hr]

/-! ## Lemmas on `Update`, on the key universe and on the frame -/

theorem foldl_set_core (f : String → Value) (l : List String) (c : Settings) :
    l.foldl (fun c key => { c with core := Tbl.set c.core key (f key) }) c =
      { c with core := l.foldl (fun t key => Tbl.set t key (f key)) c.core } := by
  induction l generalizing c with
  | nil => rfl
  | cons a l ih => rw [List.foldl_cons, ih, List.foldl_cons]

theorem Update_eq (ρ : RangeOrder) (c : Settings) (kv : GoMap Value) :
    Settings.Update ρ c kv =
      { c with core :=
          (rangeKeys ρ kv).foldl (fun t key => Tbl.set t key (index kv key).1) c.core } := by
  unfold Settings.Update
  exact foldl_set_core (fun key => (index kv key).1) _ c

theorem find_Update (ρ : RangeOrder) (c : Settings) (kv : GoMap Value) (k : String) :
    Tbl.find (Settings.Update ρ c kv).core k =
      match Tbl.find kv.tbl k with
      | some v => some v
      | none => Tbl.find c.core k := by
  rw [Update_eq]
  simp only []
  rw [find_foldl_set]
  simp only [mem_rangeKeys, Tbl.mem_keys]
  cases hf : Tbl.find kv.tbl k with
  | none => simp
  | some v => simp [index_of_find kv k v hf]

theorem mem_pairs (m : GoMap Value) (k : String) (v : Value) :
    (k, v) ∈ GoMap.pairs m ↔ Tbl.find m.tbl k = some v := by
  unfold GoMap.pairs
  rw [List.mem_map]
  constructor
  · rintro ⟨k0, hk0, he⟩
    injection he with h1 h2
    subst h1
    rw [← h2]
    exact (index_fst_of_mem m k0 hk0).symm
  · intro h
    refine ⟨k, ?_, ?_⟩
    · rw [Tbl.mem_keys, h]
      rfl
    · rw [index_of_find m k v h]

theorem map_fst_pairs (m : GoMap Value) : (GoMap.pairs m).map Prod.fst = Tbl.keys m.tbl := by
  unfold GoMap.pairs
  rw [List.map_map]
  exact List.map_id _

theorem UpdateSpec_frame (c : Settings) (ps : List (String × Value)) :
    (Settings.UpdateSpec c ps).key = c.key ∧ (Settings.UpdateSpec c ps).disk = c.disk ∧
      (Settings.UpdateSpec c ps).txnRevno = c.txnRevno := by
  induction ps generalizing c with
  | nil => exact ⟨rfl, rfl, rfl⟩
  | cons p ps ih =>
    have h : Settings.UpdateSpec c (p :: ps) = Settings.UpdateSpec (Settings.Set c p.1 p.2) ps :=
      rfl
    rw [h]
    exact ih (Settings.Set c p.1 p.2)

/-- Lookup in the overlay after `Set` has been applied for every pair of a list
with distinct keys. -/
theorem find_UpdateSpec (c : Settings) (ps : List (String × Value)) (k : String)
    (hn : (ps.map Prod.fst).Nodup) :
    (∀ v, (k, v) ∈ ps → Tbl.find (Settings.UpdateSpec c ps).core k = some v) ∧
    ((∀ v, ¬ (k, v) ∈ ps) → Tbl.find (Settings.UpdateSpec c ps).core k = Tbl.find c.core k) := by
  induction ps generalizing c with
  | nil =>
    refine ⟨?_, fun _ => rfl⟩
    intro v hv
    cases hv
  | cons p ps ih =>
    obtain ⟨k0, v0⟩ := p
    rw [List.map_cons, List.nodup_cons] at hn
    have h : Settings.UpdateSpec c ((k0, v0) :: ps) =
        Settings.UpdateSpec (Settings.Set c k0 v0) ps := rfl
    rw [h]
    obtain ⟨ih1, ih2⟩ := ih (Settings.Set c k0 v0) hn.2
    constructor
    · intro v hv
      rcases List.mem_cons.1 hv with he | hv
      · injection he with h1 h2
        subst h1
        subst h2
        rw [ih2]
        · simp [Settings.Set, Tbl.find_set]
        · intro w hw
          exact hn.1 (List.mem_map.2 ⟨_, hw, rfl⟩)
      · exact ih1 v hv
    · intro hv
      have hk : ¬ k0 = k := by
        intro e
        subst e
        exact hv v0 (List.mem_cons_self _ _)
      rw [ih2 (fun w hw => hv w (List.mem_cons_of_mem _ hw))]
      simp [Settings.Set, Tbl.find_set, hk]

theorem index_snd_false (m : GoMap Value) (k : String) (h : (index m k).2 = false) :
    (index m k).1 = Value.nil := by
  unfold index at h ⊢
  cases hf : Tbl.find m.tbl k with
  | none => rfl
  | some v => simp [hf] at h

theorem comparing_ne_unreachable (t : String) :
    "runtime error: comparing uncomparable type " ++ t ≠ "unreachable" := by
  intro h
  have h' := congrArg String.data h
  rw [String.data_append] at h'
  simp at h'

/-- No iteration of the loop of `Write` reaches the default branch. -/
theorem Write.body_ne_unreachable (c : Settings) (acc : Delta) (key : String) :
    Write.body c acc key ≠ .error "unreachable" := by
  unfold Write.body
  intro h
  cases hg : Value.goEq (index (some c.core) key).1 (index c.disk key).1 with
  | none =>
    simp only [hg] at h
    injection h with h
    exact comparing_ne_unreachable _ h
  | some b =>
    cases b with
    | true =>
      simp only [hg] at h
      cases h
    | false =>
      simp only [hg] at h
      cases hn : (index (some c.core) key).2 <;> cases ho : (index c.disk key).2
      · rw [index_snd_false _ _ hn, index_snd_false _ _ ho] at hg
        simp [Value.goEq] at hg
      · simp [hn, ho] at h
      · simp [hn, ho] at h
      · simp [hn, ho] at h

theorem foldlM_error {α β : Type} (f : β → α → Except String β) (l : List α) (acc : β)
    (msg : String) (h : l.foldlM f acc = .error msg) : ∃ a key, f a key = .error msg := by
  induction l generalizing acc with
  | nil => cases h
  | cons x xs ih =>
    rw [List.foldlM_cons] at h
    cases hx : f acc x with
    | error m =>
      rw [hx] at h
      refine ⟨acc, x, ?_⟩
      rw [hx]
      exact h
    | ok b =>
      rw [hx] at h
      exact ih b h

/-- `Write` panics only when its loop does. -/
theorem Write_error {σ : Type} (ρ : RangeOrder) (M : Mongo σ) (c : Settings) (st : State σ)
    (msg : String) (h : Settings.Write ρ M c st = .error msg) : Write.loop ρ c = .error msg := by
  cases hloop : Write.loop ρ c with
  | error m =>
    rw [Write_panic ρ M c st m hloop] at h
    injection h with h
    rw [h]
  | ok d =>
    by_cases he : d.changes = []
    · rw [Write_noop ρ M c st d hloop he] at h
      cases h
    · cases hrun : (M.Run st.db (Write.ops st c d)).1 with
      | none =>
        rw [Write_success ρ M c st d hloop he hrun] at h
        cases h
      | some err =>
        by_cases ha : err = DriverError.ErrAborted
        · rw [ha] at hrun
          rw [Write_aborted ρ M c st d hloop he hrun] at h
          cases h
        · rw [Write_failed ρ M c st d hloop he err hrun ha] at h
          cases h

/-- A `Read` that returns without an error has fetched a document and copied
it, cleaned, into both maps. -/
theorem Read_ok {σ : Type} (ρ : RangeOrder) (M : Mongo σ) (c c' : Settings) (st : State σ)
    (h : Settings.Read ρ M c st = .ok (none, c')) :
    ∃ doc, c'.disk = some (copyMap ρ (some (cleanMap doc))) ∧
      c'.core = copyMap ρ (some (cleanMap doc)) := by
  unfold Settings.Read at h
  cases hf : M.FindIdOne st.db c.key with
  | error e =>
    rw [hf] at h
    cases e <;> cases h
  | ok doc =>
    rw [hf] at h
    simp only [] at h
    cases hi : (index (some doc) "txn-revno").1 with
    | int64 r =>
      rw [hi] at h
      simp only [] at h
      injection h with h
      injection h with _ h
      rw [← h]
      exact ⟨doc, rfl, rfl⟩
    | nil => rw [hi] at h; cases h
    | bool b => rw [hi] at h; cases h
    | int i => rw [hi] at h; cases h
    | float64 f => rw [hi] at h; cases h
    | str s => rw [hi] at h; cases h
    | map m => rw [hi] at h; cases h
    | slice l => rw [hi] at h; cases h

/-- On a NaN the comparison of the loop of `Write` is false although the two
sides hold the same value: the key is reported as Modified. -/
theorem Write_reports_nan_as_modified :
    F64.isNaN 0x7FF8000000000000 = true ∧
    Write.loop RangeOrder.stored
        ⟨"k", some [("a", Value.float64 0x7FF8000000000000)],
          [("a", Value.float64 0x7FF8000000000000)], 2⟩ =
      .ok ⟨[⟨ItemModified, "a", Value.float64 0x7FF8000000000000,
          Value.float64 0x7FF8000000000000⟩],
        [("a", Value.float64 0x7FF8000000000000)], []⟩ :=
  ⟨rfl, rfl⟩

/-! ## Lemmas on the heap -/

theorem Heap.read_write (h : Heap) (a : Nat) (t : Tbl Value) (b : Nat) :
    (h.write a t).read b = if a = b ∧ a < h.objs.length then t else h.read b := by
  unfold Heap.read Heap.write
  simp only [List.getD_eq_getElem?_getD, List.getElem?_set]
  by_cases hab : a = b
  · subst hab
    by_cases hl : a < h.objs.length
    · simp [hl]
    · have hn : h.objs[a]? = none := List.getElem?_eq_none (Nat.le_of_not_lt hl)
      simp [hl, hn]
  · simp [hab]

theorem Heap.read_write_ne (h : Heap) (a : Nat) (t : Tbl Value) (b : Nat) (hne : b ≠ a) :
    (h.write a t).read b = h.read b := by
  rw [Heap.read_write]
  have hab : ¬ a = b := fun e => hne e.symm
  simp [hab]

theorem Heap.read_write_self (h : Heap) (a : Nat) (t : Tbl Value) (hl : a < h.objs.length) :
    (h.write a t).read a = t := by
  rw [Heap.read_write]
  simp [hl]

theorem Heap.length_write (h : Heap) (a : Nat) (t : Tbl Value) :
    (h.write a t).objs.length = h.objs.length := by
  unfold Heap.write
  simp

theorem Heap.read_alloc (h : Heap) (t : Tbl Value) (a : Nat) :
    (h.alloc t).2.read a = if a = h.objs.length then t else h.read a := by
  unfold Heap.read Heap.alloc
  simp only [List.getD_eq_getElem?_getD, List.getElem?_append]
  by_cases hl : a < h.objs.length
  · have hne : ¬ a = h.objs.length := Nat.ne_of_lt hl
    simp [hl, hne]
  · by_cases he : a = h.objs.length
    · subst he
      simp
    · have hn : h.objs[a]? = none := List.getElem?_eq_none (Nat.le_of_not_lt hl)
      have hpos : a - h.objs.length ≠ 0 := by omega
      have h1 : ([t] : List (Tbl Value))[a - h.objs.length]? = none := by
        apply List.getElem?_eq_none
        simp
        omega
      simp [hl, he, hn, h1]

theorem Heap.read_alloc_old (h : Heap) (t : Tbl Value) (a : Nat) (hl : a < h.objs.length) :
    (h.alloc t).2.read a = h.read a := by
  rw [Heap.read_alloc]
  simp [Nat.ne_of_lt hl]

theorem Heap.length_alloc (h : Heap) (t : Tbl Value) :
    (h.alloc t).2.objs.length = h.objs.length + 1 := by
  unfold Heap.alloc
  simp

theorem Heap.write_alloc (h : Heap) (t t' : Tbl Value) :
    (h.alloc t).2.write h.objs.length t' = (h.alloc t').2 := by
  unfold Heap.write Heap.alloc
  simp

theorem heap_copyMap_fold (f : String → Value) (h : Heap) (l : List String) (init : Tbl Value) :
    l.foldl
        (fun h' key => h'.write h.objs.length (Tbl.set (h'.read h.objs.length) key (f key)))
        (h.alloc init).2 =
      (h.alloc (l.foldl (fun out key => Tbl.set out key (f key)) init)).2 := by
  induction l generalizing init with
  | nil => rfl
  | cons a l ih =>
    rw [List.foldl_cons, List.foldl_cons, Heap.write_alloc]
    have hr : (h.alloc init).2.read h.objs.length = init := by
      rw [Heap.read_alloc]
      simp
    rw [hr]
    exact ih _

/-- The function `copyMap` allocates one map, holding a copy of its argument. -/
theorem heap_copyMap_eq (ρ : RangeOrder) (h : Heap) (m : GoMap Value) :
    Ref.copyMap ρ h m = h.alloc (copyMap ρ m) := by
  unfold Ref.copyMap
  have h1 : (h.alloc []).1 = h.objs.length := rfl
  rw [h1, heap_copyMap_fold (fun key => (index m key).1) h (rangeKeys ρ m) []]
  rfl

/-! ## Lemmas on the maps as references -/

theorem heap_Update_fold (f : String → Value) (a : Nat) (l : List String) (h : Heap) :
    (l.foldl (fun h key => h.write a (Tbl.set (h.read a) key (f key))) h).objs.length =
        h.objs.length ∧
    (∀ b, b ≠ a →
      (l.foldl (fun h key => h.write a (Tbl.set (h.read a) key (f key))) h).read b = h.read b) ∧
    (a < h.objs.length →
      (l.foldl (fun h key => h.write a (Tbl.set (h.read a) key (f key))) h).read a =
        l.foldl (fun t key => Tbl.set t key (f key)) (h.read a)) := by
  induction l generalizing h with
  | nil => exact ⟨rfl, fun _ _ => rfl, fun _ => rfl⟩
  | cons x xs ih =>
    obtain ⟨i1, i2, i3⟩ := ih (h.write a (Tbl.set (h.read a) x (f x)))
    refine ⟨?_, ?_, ?_⟩
    · rw [List.foldl_cons, i1, Heap.length_write]
    · intro b hb
      rw [List.foldl_cons, i2 b hb, Heap.read_write_ne h a _ b hb]
    · intro hl
      rw [List.foldl_cons, List.foldl_cons, i3 (by rw [Heap.length_write]; exact hl),
        Heap.read_write_self h a _ hl]

/-- `Set` writes the map at `core` and no other. -/
theorem heap_Set (h : Heap) (c : SettingsRef) (key : String) (value : Value) :
    (Ref.Set h c key value).objs.length = h.objs.length ∧
    (∀ b, b ≠ c.core → (Ref.Set h c key value).read b = h.read b) ∧
    (c.core < h.objs.length →
      (Ref.Set h c key value).read c.core = Tbl.set (h.read c.core) key value) := by
  unfold Ref.Set
  exact ⟨Heap.length_write _ _ _, fun b hb => Heap.read_write_ne _ _ _ b hb,
    fun hl => Heap.read_write_self _ _ _ hl⟩

/-- `Delete` writes the map at `core` and no other. -/
theorem heap_Delete (h : Heap) (c : SettingsRef) (key : String) :
    (Ref.Delete h c key).objs.length = h.objs.length ∧
    (∀ b, b ≠ c.core → (Ref.Delete h c key).read b = h.read b) ∧
    (c.core < h.objs.length →
      (Ref.Delete h c key).read c.core = Tbl.del (h.read c.core) key) := by
  unfold Ref.Delete
  exact ⟨Heap.length_write _ _ _, fun b hb => Heap.read_write_ne _ _ _ b hb,
    fun hl => Heap.read_write_self _ _ _ hl⟩

/-- `Update` writes the map at `core` and no other. -/
theorem heap_Update (ρ : RangeOrder) (h : Heap) (c : SettingsRef) (kv : GoMap Value) :
    (Ref.Update ρ h c kv).objs.length = h.objs.length ∧
    (∀ b, b ≠ c.core → (Ref.Update ρ h c kv).read b = h.read b) ∧
    (c.core < h.objs.length →
      (Ref.Update ρ h c kv).read c.core =
        (rangeKeys ρ kv).foldl (fun t key => Tbl.set t key (index kv key).1)
          (h.read c.core)) := by
  unfold Ref.Update
  exact heap_Update_fold (fun key => (index kv key).1) c.core (rangeKeys ρ kv) h

theorem Heap.Separate.alloc (h : Heap) (c : SettingsRef) (t : Tbl Value)
    (hs : h.Separate c) : (h.alloc t).2.Separate c := by
  obtain ⟨h1, h2⟩ := hs
  refine ⟨?_, ?_⟩
  · rw [Heap.length_alloc]
    exact Nat.lt_succ_of_lt h1
  · intro a ha
    rw [Heap.length_alloc]
    exact ⟨Nat.lt_succ_of_lt (h2 a ha).1, (h2 a ha).2⟩

theorem Heap.Separate.of_length (h h' : Heap) (c : SettingsRef)
    (hl : h'.objs.length = h.objs.length) (hs : h.Separate c) : h'.Separate c := by
  unfold Heap.Separate
  rw [hl]
  exact hs

theorem separate_fresh (ρ : RangeOrder) (h : Heap) (key : String) (values : GoMap Value) :
    (Ref.fresh ρ h key values).2.Separate (Ref.fresh ρ h key values).1 := by
  unfold Ref.fresh Heap.Separate
  simp only [heap_copyMap_eq, Ref.newSettings]
  refine ⟨?_, ?_⟩
  · rw [Heap.length_alloc]
    exact Nat.lt_succ_self _
  · intro a ha
    cases ha

theorem ref_createSettings_made {σ : Type} (ρ : RangeOrder) (M : Mongo σ) (h : Heap)
    (st : State σ) (key : String) (values : GoMap Value) (c : SettingsRef)
    (hc : (Ref.createSettings ρ M h st key values).s = some c) :
    (Ref.createSettings ρ M h st key values).h = (Ref.fresh ρ h key values).2 ∧
      c = (Ref.fresh ρ h key values).1 := by
  unfold Ref.createSettings at hc ⊢
  cases hrun : (M.Run st.db (createSettings.ops st
      ((Ref.fresh ρ h key values).1.view (Ref.fresh ρ h key values).2))).1 with
  | none =>
    simp only [State.run, hrun] at hc ⊢
    injection hc with hc
    exact ⟨trivial, hc.symm⟩
  | some e =>
    cases e <;> simp [State.run, hrun] at hc

theorem ref_overwriteSettings_made {σ : Type} (ρ : RangeOrder) (M : Mongo σ) (h : Heap)
    (st : State σ) (key : String) (values : GoMap Value) (c : SettingsRef)
    (hc : (Ref.overwriteSettings ρ M h st key values).s = some c) :
    (Ref.overwriteSettings ρ M h st key values).h = (Ref.fresh ρ h key values).2 ∧
      c = (Ref.fresh ρ h key values).1 := by
  unfold Ref.overwriteSettings at hc ⊢
  cases hrun : (M.Run st.db (overwriteSettings.ops st
      ((Ref.fresh ρ h key values).1.view (Ref.fresh ρ h key values).2))).1 with
  | none =>
    simp only [State.run, hrun] at hc ⊢
    injection hc with hc
    exact ⟨trivial, hc.symm⟩
  | some e =>
    cases e <;> simp [State.run, hrun] at hc

/-- The ways `Write` on references can return: with heap and struct as they
were, or, when the transaction succeeded, with `disk` the address of a newly
allocated copy of the map at `core`. -/
theorem ref_Write_cases {σ : Type} (ρ : RangeOrder) (M : Mongo σ) (h : Heap) (c : SettingsRef)
    (st : State σ) (r : Ref.WriteResult σ) (hw : Ref.Write ρ M h c st = .ok r) :
    (r.h = h ∧ r.c = c ∧ (r.changes = some [] ∨ r.changes = none)) ∨
    (r.err = none ∧ r.h = (h.alloc (copyMap ρ (some (h.read c.core)))).2 ∧
      r.c = { c with disk := some h.objs.length }) := by
  unfold Ref.Write at hw
  cases hloop : Write.loop ρ (c.view h) with
  | error msg =>
    rw [hloop] at hw
    cases hw
  | ok d =>
    rw [hloop] at hw
    by_cases he : d.changes.length = 0
    · simp only [he, if_true] at hw
      injection hw with hw
      rw [← hw]
      exact Or.inl ⟨rfl, rfl, Or.inl rfl⟩
    · simp only [he, if_false] at hw
      cases hrun : (M.Run st.db (Write.ops st (c.view h) d)).1 with
      | none =>
        simp only [State.run, hrun] at hw
        injection hw with hw
        rw [← hw]
        refine Or.inr ⟨rfl, ?_, ?_⟩
        · simp only [heap_copyMap_eq]
        · simp only [heap_copyMap_eq]
          rfl
      | some e =>
        cases e with
        | ErrAborted =>
          simp only [State.run, hrun] at hw
          injection hw with hw
          rw [← hw]
          exact Or.inl ⟨rfl, rfl, Or.inr rfl⟩
        | ErrNotFound =>
          simp only [State.run, hrun] at hw
          injection hw with hw
          rw [← hw]
          exact Or.inl ⟨rfl, rfl, Or.inr rfl⟩
        | other msg =>
          simp only [State.run, hrun] at hw
          injection hw with hw
          rw [← hw]
          exact Or.inl ⟨rfl, rfl, Or.inr rfl⟩

/-- The ways `Read` on references can return: with heap and struct as they were
(an error other than not-found), with `disk` nil and `core` a new empty map (not
found), or with `disk` and `core` two newly allocated copies of the cleaned
document. -/
theorem ref_Read_cases {σ : Type} (ρ : RangeOrder) (M : Mongo σ) (h : Heap) (c : SettingsRef)
    (st : State σ) (e : Option SettingsError) (c' : SettingsRef) (h' : Heap)
    (hr : Ref.Read ρ M h c st = .ok (e, c', h')) :
    (e ≠ none ∧ h' = h ∧ c' = c) ∨
    (e ≠ none ∧ h' = (h.alloc []).2 ∧ c' = { c with disk := none, core := h.objs.length }) ∨
    (∃ doc revno, e = none ∧
      h' = ((h.alloc (copyMap ρ (some (cleanMap doc)))).2.alloc
        (copyMap ρ (some (cleanMap doc)))).2 ∧
      c' = { c with txnRevno := revno, disk := some h.objs.length,
                    core := h.objs.length + 1 }) := by
  unfold Ref.Read at hr
  cases hf : M.FindIdOne st.db c.key with
  | error err =>
    rw [hf] at hr
    cases err with
    | ErrNotFound =>
      simp only [] at hr
      injection hr with hr
      injection hr with h1 h2
      injection h2 with h2 h3
      refine Or.inr (Or.inl ⟨?_, h3.symm, ?_⟩)
      · rw [← h1]
        simp
      · rw [← h2]
        rfl
    | ErrAborted =>
      simp only [] at hr
      injection hr with hr
      injection hr with h1 h2
      injection h2 with h2 h3
      refine Or.inl ⟨?_, h3.symm, h2.symm⟩
      rw [← h1]
      simp
    | other msg =>
      simp only [] at hr
      injection hr with hr
      injection hr with h1 h2
      injection h2 with h2 h3
      refine Or.inl ⟨?_, h3.symm, h2.symm⟩
      rw [← h1]
      simp
  | ok doc =>
    rw [hf] at hr
    simp only [] at hr
    cases hi : (index (some doc) "txn-revno").1 with
    | int64 revno =>
      rw [hi] at hr
      simp only [heap_copyMap_eq] at hr
      injection hr with hr
      injection hr with h1 h2
      injection h2 with h2 h3
      refine Or.inr (Or.inr ⟨doc, revno, h1.symm, h3.symm, ?_⟩)
      rw [← h2]
      simp only [Heap.alloc, List.length_append, List.length_singleton]
    | nil => rw [hi] at hr; cases hr
    | bool b => rw [hi] at hr; cases hr
    | int i => rw [hi] at hr; cases hr
    | float64 f => rw [hi] at hr; cases hr
    | str s => rw [hi] at hr; cases hr
    | map m => rw [hi] at hr; cases hr
    | slice l => rw [hi] at hr; cases hr

/-- Every overlay the functions of the file build has its two maps allocated and
distinct. -/
theorem Made.separate (h : Heap) (c : SettingsRef) (hm : Made h c) : h.Separate c := by
  induction hm with
  | newSettings h key =>
    refine ⟨?_, ?_⟩
    · show h.objs.length < (h.alloc []).2.objs.length
      rw [Heap.length_alloc]
      exact Nat.lt_succ_self _
    · intro a ha
      cases ha
  | createSettings ρ M h st key values c hc =>
    obtain ⟨h1, h2⟩ := ref_createSettings_made ρ M h st key values c hc
    rw [h1, h2]
    exact separate_fresh ρ h key values
  | overwriteSettings ρ M h st key values c hc =>
    obtain ⟨h1, h2⟩ := ref_overwriteSettings_made ρ M h st key values c hc
    rw [h1, h2]
    exact separate_fresh ρ h key values
  | read ρ M h c st e c' h' _ hr ih =>
    rcases ref_Read_cases ρ M h c st e c' h' hr with ⟨_, h1, h2⟩ | ⟨_, h1, h2⟩ |
      ⟨doc, revno, _, h1, h2⟩
    · rw [h1, h2]
      exact ih
    · rw [h1, h2]
      refine ⟨?_, ?_⟩
      · show h.objs.length < (h.alloc []).2.objs.length
        rw [Heap.length_alloc]
        exact Nat.lt_succ_self _
      · intro a ha
        cases ha
    · rw [h1, h2]
      refine ⟨?_, ?_⟩
      · show h.objs.length + 1 < _
        rw [Heap.length_alloc, Heap.length_alloc]
        exact Nat.lt_succ_self _
      · intro a ha
        have ha' : some h.objs.length = some a := ha
        injection ha' with ha'
        rw [← ha', Heap.length_alloc, Heap.length_alloc]
        exact ⟨by omega, by show h.objs.length ≠ h.objs.length + 1; omega⟩
  | write ρ M h c st r _ hw ih =>
    rcases ref_Write_cases ρ M h c st r hw with ⟨h1, h2, _⟩ | ⟨_, h1, h2⟩
    · rw [h1, h2]
      exact ih
    · rw [h1, h2]
      refine ⟨?_, ?_⟩
      · show c.core < _
        rw [Heap.length_alloc]
        exact Nat.lt_succ_of_lt ih.1
      · intro a ha
        have ha' : some h.objs.length = some a := ha
        injection ha' with ha'
        rw [← ha', Heap.length_alloc]
        refine ⟨Nat.lt_succ_self _, ?_⟩
        show h.objs.length ≠ c.core
        exact Nat.ne_of_gt ih.1
  | set h c key value _ ih =>
    exact Heap.Separate.of_length h _ c (heap_Set h c key value).1 ih
  | update ρ h c kv _ ih =>
    exact Heap.Separate.of_length h _ c (heap_Update ρ h c kv).1 ih
  | delete h c key _ ih =>
    exact Heap.Separate.of_length h _ c (heap_Delete h c key).1 ih
  | map ρ h c _ ih =>
    unfold Ref.Map
    rw [heap_copyMap_eq]
    exact Heap.Separate.alloc h c _ ih
  | alloc h c t _ ih => exact Heap.Separate.alloc h c t ih
  | elsewhere h c a t _ _ _ ih =>
    exact Heap.Separate.of_length h _ c (Heap.length_write h a t) ih

theorem view_congr (c : SettingsRef) (h h' : Heap) (hc : h'.read c.core = h.read c.core)
    (hd : ∀ a, c.disk = some a → h'.read a = h.read a) : c.view h' = c.view h := by
  unfold SettingsRef.view
  rw [hc]
  cases hx : c.disk with
  | none => rfl
  | some a =>
    simp only [Option.map_some']
    rw [hd a hx]

theorem view_alloc (h : Heap) (c : SettingsRef) (t : Tbl Value) (hs : h.Separate c) :
    c.view (h.alloc t).2 = c.view h :=
  view_congr c h _ (Heap.read_alloc_old h t c.core hs.1)
    (fun a ha => Heap.read_alloc_old h t a (hs.2 a ha).1)

/-- On an overlay whose maps are separate, `Set` on references is `Set` on the
overlay. -/
theorem view_Set (h : Heap) (c : SettingsRef) (key : String) (value : Value)
    (hs : h.Separate c) :
    c.view (Ref.Set h c key value) = Settings.Set (c.view h) key value := by
  obtain ⟨_, h2, h3⟩ := heap_Set h c key value
  unfold SettingsRef.view Settings.Set
  rw [h3 hs.1]
  cases hx : c.disk with
  | none => rfl
  | some a =>
    simp only [Option.map_some']
    rw [h2 a (hs.2 a hx).2]

/-- On an overlay whose maps are separate, `Delete` on references is `Delete` on
the overlay. -/
theorem view_Delete (h : Heap) (c : SettingsRef) (key : String) (hs : h.Separate c) :
    c.view (Ref.Delete h c key) = Settings.Delete (c.view h) key := by
  obtain ⟨_, h2, h3⟩ := heap_Delete h c key
  unfold SettingsRef.view Settings.Delete
  rw [h3 hs.1]
  cases hx : c.disk with
  | none => rfl
  | some a =>
    simp only [Option.map_some']
    rw [h2 a (hs.2 a hx).2]

/-- On an overlay whose maps are separate, `Update` on references is `Update` on
the overlay. -/
theorem view_Update (ρ : RangeOrder) (h : Heap) (c : SettingsRef) (kv : GoMap Value)
    (hs : h.Separate c) :
    c.view (Ref.Update ρ h c kv) = Settings.Update ρ (c.view h) kv := by
  obtain ⟨_, h2, h3⟩ := heap_Update ρ h c kv
  rw [Update_eq]
  unfold SettingsRef.view
  rw [h3 hs.1]
  cases hx : c.disk with
  | none => rfl
  | some a =>
    simp only [Option.map_some']
    rw [h2 a (hs.2 a hx).2]

/-- The accessors on references are the accessors on the overlay. -/
theorem view_Get_Keys (ρ : RangeOrder) (h : Heap) (c : SettingsRef) (key : String) :
    Ref.Get h c key = Settings.Get (c.view h) key ∧
      Ref.Keys ρ h c = Settings.Keys ρ (c.view h) :=
  ⟨rfl, rfl⟩

/-- `Map` on references allocates one map, a copy of `core`, and leaves the
overlay as it was. -/
theorem view_Map (ρ : RangeOrder) (h : Heap) (c : SettingsRef) (hs : h.Separate c) :
    (Ref.Map ρ h c).1 = h.objs.length ∧
    (Ref.Map ρ h c).2.read (Ref.Map ρ h c).1 = Settings.Map ρ (c.view h) ∧
    c.view (Ref.Map ρ h c).2 = c.view h ∧
    (∀ a, a < h.objs.length → (Ref.Map ρ h c).2.read a = h.read a) := by
  unfold Ref.Map
  rw [heap_copyMap_eq]
  refine ⟨rfl, ?_, view_alloc h c _ hs, fun a ha => Heap.read_alloc_old h _ a ha⟩
  rw [Heap.read_alloc]
  simp [Heap.alloc, Settings.Map, SettingsRef.view]

/-- On an overlay whose maps are separate, `Write` on references returns what
`Write` on the overlay returns. -/
theorem view_Write {σ : Type} (ρ : RangeOrder) (M : Mongo σ) (h : Heap) (c : SettingsRef)
    (st : State σ) (r : Ref.WriteResult σ) (hs : h.Separate c)
    (hw : Ref.Write ρ M h c st = .ok r) :
    Settings.Write ρ M (c.view h) st = .ok ⟨r.changes, r.err, r.c.view r.h, r.st⟩ := by
  unfold Ref.Write at hw
  cases hloop : Write.loop ρ (c.view h) with
  | error msg =>
    rw [hloop] at hw
    cases hw
  | ok d =>
    rw [hloop] at hw
    by_cases he : d.changes.length = 0
    · simp only [he, if_true] at hw
      injection hw with hw
      rw [← hw]
      exact Write_noop ρ M _ st d hloop (List.length_eq_zero.1 he)
    · have hne : d.changes ≠ [] := fun e => he (List.length_eq_zero.2 e)
      simp only [he, if_false] at hw
      cases hrun : (M.Run st.db (Write.ops st (c.view h) d)).1 with
      | none =>
        simp only [State.run, hrun, heap_copyMap_eq] at hw
        injection hw with hw
        rw [← hw, Write_success ρ M _ st d hloop hne hrun]
        have hv : SettingsRef.view { c with disk := some (h.alloc (copyMap ρ (some (h.read c.core)))).1 }
            (h.alloc (copyMap ρ (some (h.read c.core)))).2 =
            { c.view h with disk := some (copyMap ρ (some (c.view h).core)) } := by
          unfold SettingsRef.view
          simp only [Option.map_some']
          rw [Heap.read_alloc_old h _ c.core hs.1, Heap.read_alloc]
          simp [Heap.alloc]
        rw [hv]
      | some e =>
        cases e with
        | ErrAborted =>
          simp only [State.run, hrun] at hw
          injection hw with hw
          rw [← hw]
          exact Write_aborted ρ M _ st d hloop hne hrun
        | ErrNotFound =>
          simp only [State.run, hrun] at hw
          injection hw with hw
          rw [← hw]
          exact Write_failed ρ M _ st d hloop hne _ hrun (fun e => by cases e)
        | other msg =>
          simp only [State.run, hrun] at hw
          injection hw with hw
          rw [← hw]
          exact Write_failed ρ M _ st d hloop hne _ hrun (fun e => by cases e)

/-- `Read` on references returns what `Read` on the overlay returns. -/
theorem view_Read {σ : Type} (ρ : RangeOrder) (M : Mongo σ) (h : Heap) (c : SettingsRef)
    (st : State σ) (e : Option SettingsError) (c' : SettingsRef) (h' : Heap)
    (hr : Ref.Read ρ M h c st = .ok (e, c', h')) :
    Settings.Read ρ M (c.view h) st = .ok (e, c'.view h') := by
  have hk : (c.view h).key = c.key := rfl
  unfold Ref.Read at hr
  unfold Settings.Read
  rw [hk]
  cases hf : M.FindIdOne st.db c.key with
  | error err =>
    rw [hf] at hr
    cases err with
    | ErrNotFound =>
      simp only [] at hr ⊢
      injection hr with hr
      injection hr with h1 h2
      injection h2 with h2 h3
      rw [← h1, ← h2, ← h3]
      unfold SettingsRef.view
      simp only [Option.map_none']
      rw [Heap.read_alloc]
      simp [Heap.alloc]
    | ErrAborted =>
      simp only [] at hr ⊢
      injection hr with hr
      injection hr with h1 h2
      injection h2 with h2 h3
      rw [← h1, ← h2, ← h3]
    | other msg =>
      simp only [] at hr ⊢
      injection hr with hr
      injection hr with h1 h2
      injection h2 with h2 h3
      rw [← h1, ← h2, ← h3]
  | ok doc =>
    rw [hf] at hr
    simp only [] at hr ⊢
    cases hi : (index (some doc) "txn-revno").1 with
    | int64 revno =>
      rw [hi] at hr
      simp only [heap_copyMap_eq] at hr
      simp only []
      injection hr with hr
      injection hr with h1 h2
      injection h2 with h2 h3
      rw [← h1, ← h2, ← h3]
      unfold SettingsRef.view
      simp only [Option.map_some']
      rw [Heap.read_alloc, Heap.read_alloc, Heap.read_alloc]
      simp [Heap.alloc]
    | nil => rw [hi] at hr; cases hr
    | bool b => rw [hi] at hr; cases hr
    | int i => rw [hi] at hr; cases hr
    | float64 f => rw [hi] at hr; cases hr
    | str s => rw [hi] at hr; cases hr
    | map m => rw [hi] at hr; cases hr
    | slice l => rw [hi] at hr; cases hr

/-! ## The claims -/

/-- C1 (diff correctness), evaluated where it fails.  With `disk = {d: nil}` and
`core = {a: nil, b: 1}` the key `a` is only in `core` and the key `d` is only in
`disk`, yet a `Write` whose transaction succeeds returns the single record
Added(b): there is no Added record for `a` and no Deleted record for `d`, and
the submitted operation sets only `b`. -/
theorem C1_write_omits_nil_valued_keys :
    ∃ r, Settings.Write RangeOrder.stored memMongo
        ⟨"k", some [("d", Value.nil)], [("a", Value.nil), ("b", Value.int 1)], 2⟩
        (memState [("k", stamp "k" 2 [("d", Value.nil)])]) = .ok r ∧
      r.err = none ∧
      r.changes = some [⟨ItemAdded, "b", Value.nil, Value.int 1⟩] ∧
      r.st.journal = [[⟨"settings", "k", Assertion.DocExists, none,
        some (UpdateDoc.setUnset [("b", Value.int 1)] [])⟩]] ∧
      Tbl.find [("a", Value.nil), ("b", Value.int 1)] "a" = some Value.nil ∧
      Tbl.find [("d", Value.nil)] "a" = none ∧
      Tbl.find [("d", Value.nil)] "d" = some Value.nil ∧
      Tbl.find [("a", Value.nil), ("b", Value.int 1)] "d" = none :=
  ⟨_, rfl, rfl, rfl, rfl, rfl, rfl, rfl, rfl⟩

/-- C2 (concrete scenario).  Under every iteration order: reading the document
`{a: 1, b: 2}` gives an overlay with `disk = core = {a: 1, b: 2}`; after
`Set("b", 3)`, `Set("c", 4)`, `Delete("a")` the `Write` succeeds and returns
exactly `[Deleted(a, old 1), Modified(b, old 2, new 3), Added(c, new 4)]`;
afterwards `Map()` is `{b: 3, c: 4}` and a second `Write` returns the empty list
without an error and without touching the store. -/
theorem C2_scenario_set_set_delete_write (ρ : RangeOrder) :
    ∃ s r r2,
      readSettings ρ memMongo
          (memState [("k", stamp "k" 2 [("a", Value.int 1), ("b", Value.int 2)])]) "k" =
        .ok (some s, none) ∧
      Tbl.Same s.disk.tbl [("a", Value.int 1), ("b", Value.int 2)] ∧
      Tbl.Same s.core [("a", Value.int 1), ("b", Value.int 2)] ∧
      Settings.Write ρ memMongo
          (((s.Set "b" (Value.int 3)).Set "c" (Value.int 4)).Delete "a")
          (memState [("k", stamp "k" 2 [("a", Value.int 1), ("b", Value.int 2)])]) = .ok r ∧
      r.err = none ∧
      r.changes = some [⟨ItemDeleted, "a", Value.int 1, Value.nil⟩,
        ⟨ItemModified, "b", Value.int 2, Value.int 3⟩,
        ⟨ItemAdded, "c", Value.nil, Value.int 4⟩] ∧
      Tbl.Same (r.c.Map ρ) [("b", Value.int 3), ("c", Value.int 4)] ∧
      Settings.Write ρ memMongo r.c r.st = .ok r2 ∧
      r2.changes = some [] ∧ r2.err = none ∧ r2.st = r.st := by
  have hread : readSettings ρ memMongo
      (memState [("k", stamp "k" 2 [("a", Value.int 1), ("b", Value.int 2)])]) "k" =
      .ok (some ⟨"k", some (copyMap ρ (some [("a", Value.int 1), ("b", Value.int 2)])),
        copyMap ρ (some [("a", Value.int 1), ("b", Value.int 2)]), 2⟩, none) := rfl
  have hcopy : ∀ k, Tbl.find (copyMap ρ (some [("a", Value.int 1), ("b", Value.int 2)])) k =
      Tbl.find [("a", Value.int 1), ("b", Value.int 2)] k := fun k => find_copyMap ρ _ k
  have h0 : Write.loop RangeOrder.stored
      ⟨"k", some [("a", Value.int 1), ("b", Value.int 2)],
        [("b", Value.int 3), ("c", Value.int 4)], 2⟩ =
      .ok ⟨[⟨ItemDeleted, "a", Value.int 1, Value.nil⟩,
        ⟨ItemModified, "b", Value.int 2, Value.int 3⟩,
        ⟨ItemAdded, "c", Value.nil, Value.int 4⟩], [("b", Value.int 3), ("c", Value.int 4)],
        [("a", 1)]⟩ := rfl
  have hc : ∀ k, Tbl.find [("b", Value.int 3), ("c", Value.int 4)] k =
      Tbl.find (Tbl.del (Tbl.set (Tbl.set
        (copyMap ρ (some [("a", Value.int 1), ("b", Value.int 2)])) "b" (Value.int 3))
        "c" (Value.int 4)) "a") k := by
    intro k
    rw [Tbl.find_del, Tbl.find_set, Tbl.find_set, hcopy]
    by_cases ha : "a" = k
    · subst ha
      simp [Tbl.find]
    · by_cases hb : "b" = k
      · subst hb
        simp [Tbl.find]
      · by_cases hcc : "c" = k
        · subst hcc
          simp [Tbl.find]
        · simp [Tbl.find, ha, hb, hcc]
  obtain ⟨d, hd, hsort⟩ := Write.loop_congr RangeOrder.stored ρ
    ⟨"k", some [("a", Value.int 1), ("b", Value.int 2)],
      [("b", Value.int 3), ("c", Value.int 4)], 2⟩
    ⟨"k", some (copyMap ρ (some [("a", Value.int 1), ("b", Value.int 2)])),
      Tbl.del (Tbl.set (Tbl.set
        (copyMap ρ (some [("a", Value.int 1), ("b", Value.int 2)])) "b" (Value.int 3))
        "c" (Value.int 4)) "a", 2⟩
    (fun k => (hcopy k).symm) hc _ h0
  have hsort' : itemChangeSlice.sort d.changes =
      [⟨ItemDeleted, "a", Value.int 1, Value.nil⟩,
        ⟨ItemModified, "b", Value.int 2, Value.int 3⟩,
        ⟨ItemAdded, "c", Value.nil, Value.int 4⟩] := hsort
  have hne : d.changes ≠ [] := by
    intro e
    rw [e] at hsort'
    cases hsort'
  have hw := Write_success ρ memMongo _ (memState [("k", stamp "k" 2 [("a", Value.int 1), ("b", Value.int 2)])]) d hd hne rfl
  have h1 : Write.loop RangeOrder.stored
      ⟨"k", some [("b", Value.int 3), ("c", Value.int 4)],
        [("b", Value.int 3), ("c", Value.int 4)], 2⟩ = .ok ⟨[], [], []⟩ := rfl
  obtain ⟨d2, hd2, hsort2⟩ := Write.loop_congr RangeOrder.stored ρ
    ⟨"k", some [("b", Value.int 3), ("c", Value.int 4)],
      [("b", Value.int 3), ("c", Value.int 4)], 2⟩
    ⟨"k", some (copyMap ρ (some (Tbl.del (Tbl.set (Tbl.set
        (copyMap ρ (some [("a", Value.int 1), ("b", Value.int 2)])) "b" (Value.int 3))
        "c" (Value.int 4)) "a"))),
      Tbl.del (Tbl.set (Tbl.set
        (copyMap ρ (some [("a", Value.int 1), ("b", Value.int 2)])) "b" (Value.int 3))
        "c" (Value.int 4)) "a", 2⟩
    (fun k => (hc k).trans (copyMap_same ρ _ k).symm) hc _ h1
  have he2 : d2.changes = [] := (itemChangeSlice.sort_eq_nil _).1 hsort2
  refine ⟨_, _, _, hread, hcopy, hcopy, hw, rfl, congrArg some hsort', ?_, Write_noop ρ memMongo _ _ d2 hd2 he2, rfl, rfl, rfl⟩
  intro k
  exact (copyMap_same ρ _ k).trans (hc k).symm

/-- C3 (no-op write), evaluated where it fails.  The overlay freshly produced by
a successful read of a document whose field `a` holds a nested (empty) map has
`disk` and `core` equal, yet `Write` on it does not return: the comparison
`new == old` of the two map values panics. -/
theorem C3_write_after_read_panics_on_nested_map :
    ∃ s, readSettings RangeOrder.stored memMongo
        (memState [("k", stamp "k" 2 [("a", Value.map [])])]) "k" = .ok (some s, none) ∧
      s.disk = some s.core ∧
      Settings.Write RangeOrder.stored memMongo s
        (memState [("k", stamp "k" 2 [("a", Value.map [])])]) =
        .error "runtime error: comparing uncomparable type map[string]interface {}" :=
  ⟨_, rfl, rfl, rfl⟩

/-- C4 (resync on success), evaluated where it fails.  With `disk = {}` and
`core = {a: {}}` (a nested map) the first `Write` succeeds, returns Added(a) and
leaves `disk` equal to `core`; the immediately following `Write` does not return
an empty change list: it panics in `new == old`. -/
theorem C4_second_write_panics_on_nested_map :
    ∃ r, Settings.Write RangeOrder.stored memMongo
        ⟨"k", some [], [("a", Value.map [])], 2⟩ Example.storeEmptyDoc = .ok r ∧
      r.err = none ∧
      r.changes = some [⟨ItemAdded, "a", Value.nil, Value.map []⟩] ∧
      r.c.disk = some r.c.core ∧
      Settings.Write RangeOrder.stored memMongo r.c r.st =
        .error "runtime error: comparing uncomparable type map[string]interface {}" :=
  ⟨_, rfl, rfl, rfl, rfl, rfl⟩

/-- C5 (sort determinism).  The change list returned by a `Write` that returns
without an error is strictly ascending by `Key`, so no key appears twice, and it
is the same list under any other iteration order (and any store) for the same
`disk` and `core`. -/
theorem C5_changes_sorted_and_order_independent {σ σ' : Type} (ρ ρ' : RangeOrder)
    (M : Mongo σ) (M' : Mongo σ') (c : Settings) (st : State σ) (st' : State σ')
    (r : WriteResult σ) (r' : WriteResult σ')
    (h : Settings.Write ρ M c st = .ok r) (h' : Settings.Write ρ' M' c st' = .ok r')
    (hs : r.err = none) (hs' : r'.err = none) :
    ∃ l, r.changes = some l ∧ r'.changes = some l ∧
      l.Pairwise (fun a b => a.Key < b.Key) ∧ (l.map ItemChange.Key).Nodup := by
  obtain ⟨d, hd, hr⟩ := Write_ok_changes ρ M c st r h hs
  obtain ⟨d', hd', hr'⟩ := Write_ok_changes ρ' M' c st' r' h' hs'
  refine ⟨itemChangeSlice.sort d.changes, hr, ?_, ?_, ?_⟩
  · rw [hr', Write.sort_changes_eq ρ' ρ c d' d hd' hd]
  · exact itemChangeSlice.sort_sorted _ (Write.nodup_changes ρ c d hd)
  · exact ((itemChangeSlice.sort_perm d.changes).map _).nodup_iff.2 (Write.nodup_changes ρ c d hd)

/-- Witness of C5: the edited overlay written in stored order and in reversed
order. -/
theorem C5_witness :
    ∃ l : List ItemChange,
      l = [⟨ItemDeleted, "a", Value.int 1, Value.nil⟩,
        ⟨ItemModified, "b", Value.int 2, Value.int 3⟩,
        ⟨ItemAdded, "c", Value.nil, Value.int 4⟩] ∧
      l.Pairwise (fun a b => a.Key < b.Key) ∧ (l.map ItemChange.Key).Nodup := by
  obtain ⟨l, h1, _, h3, h4⟩ := C5_changes_sorted_and_order_independent RangeOrder.stored
    RangeOrder.reversed memMongo memMongo Example.edited Example.store12 Example.store12 _ _
    rfl rfl rfl rfl
  exact ⟨l, (Option.some.inj h1).symm, h3, h4⟩

/-- C6 (failed write is atomic on the overlay).  When the loop of `Write` finds a
non-empty diff and the runner reports an error, `Write` returns no change list
and leaves the overlay exactly as it was (`key`, `disk`, `core`, `txnRevno`, hence
`Map()`); the error is NotFound when the runner reported `txn.ErrAborted`, and
otherwise the distinct error "cannot write settings: " followed by the cause. -/
theorem C6_failed_write_keeps_overlay {σ : Type} (ρ : RangeOrder) (M : Mongo σ)
    (c : Settings) (st : State σ) (d : Delta) (e : DriverError)
    (h : Write.loop ρ c = .ok d) (hne : d.changes ≠ [])
    (hrun : (M.Run st.db (Write.ops st c d)).1 = some e) :
    ∃ r, Settings.Write ρ M c st = .ok r ∧ r.changes = none ∧ r.c = c ∧
      Settings.Map ρ r.c = Settings.Map ρ c ∧
      (e = DriverError.ErrAborted → r.err = some (notFound "settings")) ∧
      (e ≠ DriverError.ErrAborted →
        r.err = some (SettingsError.Errorf ("cannot write settings: " ++ e.Error))) ∧
      notFound "settings" ≠ SettingsError.Errorf ("cannot write settings: " ++ e.Error) := by
  have hd : notFound "settings" ≠ SettingsError.Errorf ("cannot write settings: " ++ e.Error) := by
    intro hx
    cases hx
  by_cases ha : e = DriverError.ErrAborted
  · rw [ha] at hrun
    exact ⟨_, Write_aborted ρ M c st d h hne hrun, rfl, rfl, rfl, fun _ => rfl,
      fun hn => absurd ha hn, hd⟩
  · exact ⟨_, Write_failed ρ M c st d h hne e hrun ha, rfl, rfl, rfl, fun he => absurd he ha,
      fun _ => rfl, hd⟩

/-- Witness of C6: the edited overlay written to a store that has no document,
so that the guard fails. -/
theorem C6_witness :
    ∃ r, Settings.Write RangeOrder.stored memMongo Example.edited (memState []) = .ok r ∧
      r.changes = none ∧ r.c = Example.edited ∧
      Settings.Map RangeOrder.stored r.c = Settings.Map RangeOrder.stored Example.edited ∧
      r.err = some (notFound "settings") := by
  obtain ⟨r, h1, h2, h3, h4, h5, _, _⟩ := C6_failed_write_keeps_overlay RangeOrder.stored
    memMongo Example.edited (memState [])
    ⟨[⟨ItemDeleted, "a", Value.int 1, Value.nil⟩, ⟨ItemModified, "b", Value.int 2, Value.int 3⟩,
      ⟨ItemAdded, "c", Value.nil, Value.int 4⟩], [("b", Value.int 3), ("c", Value.int 4)],
      [("a", 1)]⟩
    DriverError.ErrAborted rfl (List.cons_ne_nil _ _) rfl
  exact ⟨r, h1, h2, h3, h4, h5 rfl⟩

/-- C7 (field-level delta).  A `Write` that returns a non-empty change list has
submitted exactly one operation, guarded by document-exists, whose update is
`$set` of an update-set and `$unset` of a deletion-set such that: the update-set
holds exactly the keys of the Added and Modified records, with their `core`
values; the deletion-set holds exactly the keys of the Deleted records; no key
is in both; and applying the update to any document leaves every field whose key
is not in the change list as it was. -/
theorem C7_field_level_delta {σ : Type} (ρ : RangeOrder) (M : Mongo σ) (c : Settings)
    (st : State σ) (r : WriteResult σ) (l : List ItemChange)
    (h : Settings.Write ρ M c st = .ok r) (hl : r.changes = some l) (hne : l ≠ []) :
    ∃ updates deletions,
      r.st.journal = st.journal ++ [[⟨st.settingsName, c.key, Assertion.DocExists, none,
        some (UpdateDoc.setUnset updates deletions)⟩]] ∧
      (∀ k v, Tbl.find updates k = some v ↔
        ∃ ch ∈ l, ch.Key = k ∧ (ch.Typ = ItemAdded ∨ ch.Typ = ItemModified) ∧
          Tbl.find c.core k = some v) ∧
      (∀ k, (Tbl.find deletions k).isSome = true ↔ ∃ ch ∈ l, ch.Key = k ∧ ch.Typ = ItemDeleted) ∧
      (∀ k, ¬ ((Tbl.find updates k).isSome = true ∧ (Tbl.find deletions k).isSome = true)) ∧
      (∀ doc k, (∀ ch ∈ l, ch.Key ≠ k) →
        Tbl.find (applySetUnset doc updates deletions) k = Tbl.find doc k) := by
  cases hloop : Write.loop ρ c with
  | error msg =>
    rw [Write_panic ρ M c st msg hloop] at h
    cases h
  | ok d =>
    by_cases he : d.changes = []
    · rw [Write_noop ρ M c st d hloop he] at h
      injection h with h
      rw [← h] at hl
      injection hl with hl
      exact absurd hl.symm hne
    · cases hrun : (M.Run st.db (Write.ops st c d)).1 with
      | some err =>
        by_cases ha : err = DriverError.ErrAborted
        · rw [ha] at hrun
          rw [Write_aborted ρ M c st d hloop he hrun] at h
          injection h with h
          rw [← h] at hl
          cases hl
        · rw [Write_failed ρ M c st d hloop he err hrun ha] at h
          injection h with h
          rw [← h] at hl
          cases hl
      | none =>
        rw [Write_success ρ M c st d hloop he hrun] at h
        injection h with h
        rw [← h] at hl
        injection hl with hl
        obtain ⟨_, _, hu, hdel⟩ := Write.loop_ok ρ c d hloop
        have hmem : ∀ ch, ch ∈ l ↔ Write.record c ch.Key = some ch := by
          intro ch
          rw [← hl, (itemChangeSlice.sort_perm d.changes).mem_iff]
          exact Write.mem_changes ρ c d hloop ch
        have hU : ∀ k v, Tbl.find d.updates k = some v ↔
            ∃ ch ∈ l, ch.Key = k ∧ (ch.Typ = ItemAdded ∨ ch.Typ = ItemModified) ∧
              Tbl.find c.core k = some v := by
          intro k v
          rw [hu k, Write.updateOf_iff]
          constructor
          · rintro ⟨ch, hr, ht, hc⟩
            have hk := Write.record_key c k ch hr
            refine ⟨ch, (hmem ch).2 (by rw [hk]; exact hr), hk, ht, hc⟩
          · rintro ⟨ch, hm, hk, ht, hc⟩
            refine ⟨ch, ?_, ht, hc⟩
            rw [← hk]
            exact (hmem ch).1 hm
        have hD : ∀ k, (Tbl.find d.deletions k).isSome = true ↔
            ∃ ch ∈ l, ch.Key = k ∧ ch.Typ = ItemDeleted := by
          intro k
          rw [hdel k]
          have h1 : ((if Write.deletes c k = true then some (1 : Int) else none).isSome = true) ↔
              Write.deletes c k = true := by
            cases Write.deletes c k <;> simp
          rw [h1, Write.deletes_iff]
          constructor
          · rintro ⟨ch, hr, ht⟩
            have hk := Write.record_key c k ch hr
            refine ⟨ch, (hmem ch).2 (by rw [hk]; exact hr), hk, ht⟩
          · rintro ⟨ch, hm, hk, ht⟩
            refine ⟨ch, ?_, ht⟩
            rw [← hk]
            exact (hmem ch).1 hm
        refine ⟨d.updates, d.deletions, ?_, hU, hD, ?_, ?_⟩
        · rw [← h]
          rfl
        · rintro k ⟨h1, h2⟩
          obtain ⟨v, hv⟩ := Option.isSome_iff_exists.1 h1
          obtain ⟨ch, hm, hk, ht, _⟩ := (hU k v).1 hv
          obtain ⟨ch', hm', hk', ht'⟩ := (hD k).1 h2
          have e1 := (hmem ch).1 hm
          have e2 := (hmem ch').1 hm'
          rw [hk] at e1
          rw [hk'] at e2
          rw [e1] at e2
          injection e2 with e2
          rw [e2, ht'] at ht
          rcases ht with ht | ht <;> simp [ItemAdded, ItemModified, ItemDeleted] at ht
        · intro doc k hk
          rw [find_applySetUnset]
          have hnd : (Tbl.find d.deletions k).isSome = false := by
            cases hx : (Tbl.find d.deletions k).isSome with
            | false => rfl
            | true =>
              obtain ⟨ch, hm, hk', _⟩ := (hD k).1 hx
              exact absurd hk' (hk ch hm)
          have hnu : Tbl.find d.updates k = none := by
            cases hx : Tbl.find d.updates k with
            | none => rfl
            | some v =>
              obtain ⟨ch, hm, hk', _⟩ := (hU k v).1 hx
              exact absurd hk' (hk ch hm)
          simp [hnd, hnu]

/-- Witness of C7: the edited overlay written to the store holding
`{a: 1, b: 2}`. -/
theorem C7_witness :
    ∃ updates deletions,
      [[(⟨"settings", "k", Assertion.DocExists, none,
          some (UpdateDoc.setUnset [("b", Value.int 3), ("c", Value.int 4)] [("a", 1)])⟩ : Op)]] =
        [] ++ [[⟨"settings", "k", Assertion.DocExists, none,
          some (UpdateDoc.setUnset updates deletions)⟩]] ∧
      (∀ doc k, (∀ ch ∈ [(⟨ItemDeleted, "a", Value.int 1, Value.nil⟩ : ItemChange),
          ⟨ItemModified, "b", Value.int 2, Value.int 3⟩,
          ⟨ItemAdded, "c", Value.nil, Value.int 4⟩], ch.Key ≠ k) →
        Tbl.find (applySetUnset doc updates deletions) k = Tbl.find doc k) := by
  obtain ⟨u, dl, h1, _, _, _, h5⟩ := C7_field_level_delta RangeOrder.stored memMongo
    Example.edited Example.store12 _ _ rfl rfl (List.cons_ne_nil _ _)
  exact ⟨u, dl, h1, h5⟩

/-- Counterexample to C8: `createSettings` with `{x: "y"}` on a key with no
document succeeds and returns an overlay whose `core` is `{x: "y"}` and whose
`disk` is nil, so `disk` is not equal to `core`; a `Write` issued on it with no
intervening mutation returns the record Added(x) and submits a transaction. -/
theorem C8_createSettings_disk_differs_from_core :
    ∃ s st1 r, createSettings RangeOrder.stored memMongo (memState []) "k"
        (some [("x", Value.str "y")]) = ⟨some s, none, st1⟩ ∧
      s.core = [("x", Value.str "y")] ∧ s.disk = none ∧
      ¬ Tbl.Same s.disk.tbl s.core ∧
      Settings.Write RangeOrder.stored memMongo s st1 = .ok r ∧
      r.changes = some [⟨ItemAdded, "x", Value.nil, Value.str "y"⟩] ∧
      r.st.journal.length = st1.journal.length + 1 := by
  refine ⟨_, _, _, rfl, rfl, rfl, ?_, rfl, rfl, rfl⟩
  intro h
  have h' := h "x"
  simp [GoMap.tbl, Tbl.find] at h'

/-- C8 as amended.  The overlay returned by a successful `createSettings` has
`core` equal to the initial mapping and `disk` nil: `disk` is not resynchronised.
A `Write` issued on it with no intervening mutation returns an empty change list
and leaves the store untouched when the initial mapping is empty. -/
theorem C8_createSettings_leaves_disk_nil {σ : Type} (ρ : RangeOrder) (M : Mongo σ)
    (st : State σ) (key : String) (values : GoMap Value)
    (hrun : (M.Run st.db
      (createSettings.ops st { newSettings key with core := copyMap ρ values })).1 = none) :
    ∃ s, (createSettings ρ M st key values).s = some s ∧
      (createSettings ρ M st key values).err = none ∧
      s.key = key ∧ s.disk = none ∧ Tbl.Same s.core values.tbl ∧
      (values.tbl = [] → ∀ (σ' : Type) (M' : Mongo σ') (st' : State σ'),
        Settings.Write ρ M' s st' = .ok ⟨some [], none, s, st'⟩) := by
  refine ⟨{ newSettings key with core := copyMap ρ values }, ?_, ?_, rfl, rfl,
    fun k => find_copyMap ρ values k, ?_⟩
  · simp only [createSettings, State.run, hrun]
  · simp only [createSettings, State.run, hrun]
  · intro hv σ' M' st'
    apply Write_noop ρ M' _ st' ⟨[], [], []⟩ _ rfl
    exact Write.loop_empty ρ _ rfl (copyMap_empty ρ values hv)

/-- Witness of C8: `createSettings` with `{x: "y"}` on the empty store. -/
theorem C8_witness :
    ∃ s, (createSettings RangeOrder.stored memMongo (memState []) "k"
        (some [("x", Value.str "y")])).s = some s ∧
      s.disk = none ∧ s.core = [("x", Value.str "y")] := by
  obtain ⟨s, h1, _, _, h4, _, _⟩ := C8_createSettings_leaves_disk_nil RangeOrder.stored memMongo
    (memState []) "k" (some [("x", Value.str "y")]) rfl
  have h1' : some (⟨"k", none, [("x", Value.str "y")], 0⟩ : Settings) = some s := h1
  injection h1' with h1'
  exact ⟨s, h1, h4, by rw [← h1']⟩

/-- C9 (create scenario).  Over the in-memory store, for every key and iteration
order: `createSettings` with `{x: "y"}` on the empty store succeeds and inserts
the document; a following `readSettings` on the key succeeds with
`core = {x: "y"}`; a second `createSettings` on the key fails with the error
"cannot overwrite existing settings", which differs from every NotFound error
and from every "cannot create settings: ..." and "cannot write settings: ..."
failure, and the stored documents are unchanged. -/
theorem C9_create_read_create_again (ρ : RangeOrder) (key : String) :
    ∃ s st1 s' st2,
      createSettings ρ memMongo (memState []) key (some [("x", Value.str "y")]) =
        ⟨some s, none, st1⟩ ∧
      st1.db = [(key, stamp key 2 [("x", Value.str "y")])] ∧
      readSettings ρ memMongo st1 key = .ok (some s', none) ∧
      s'.core = [("x", Value.str "y")] ∧
      createSettings ρ memMongo st1 key (some [("x", Value.str "y")]) =
        ⟨none, some (SettingsError.Errorf "cannot overwrite existing settings"), st2⟩ ∧
      st2.db = st1.db ∧
      (∀ what, SettingsError.Errorf "cannot overwrite existing settings" ≠ notFound what) ∧
      (∀ cause : DriverError, SettingsError.Errorf "cannot overwrite existing settings" ≠
        SettingsError.Errorf ("cannot create settings: " ++ cause.Error)) ∧
      (∀ cause : DriverError, SettingsError.Errorf "cannot overwrite existing settings" ≠
        SettingsError.Errorf ("cannot write settings: " ++ cause.Error)) := by
  have hfind : Tbl.find [(key, stamp key 2 [("x", Value.str "y")])] key =
      some (stamp key 2 [("x", Value.str "y")]) := by simp [Tbl.find]
  have h1 : createSettings ρ memMongo (memState []) key (some [("x", Value.str "y")]) =
      ⟨some ⟨key, none, [("x", Value.str "y")], 0⟩, none,
        ⟨[(key, stamp key 2 [("x", Value.str "y")])], "settings",
          [[⟨"settings", key, Assertion.DocMissing, some [("x", Value.str "y")], none⟩]]⟩⟩ := by
    unfold createSettings
    rw [copyMap_singleton]
    rfl
  have h2 : readSettings ρ memMongo
      ⟨[(key, stamp key 2 [("x", Value.str "y")])], "settings",
          [[⟨"settings", key, Assertion.DocMissing, some [("x", Value.str "y")], none⟩]]⟩ key =
      .ok (some ⟨key, some [("x", Value.str "y")], [("x", Value.str "y")], 2⟩, none) := by
    have hc : cleanMap (stamp key 2 [("x", Value.str "y")]) = [("x", Value.str "y")] := rfl
    have hi : (index (some (stamp key 2 [("x", Value.str "y")])) "txn-revno").1 = Value.int64 2 :=
      rfl
    simp only [readSettings, Settings.Read, memMongo, memFindIdOne, newSettings, hfind, hi, hc,
      copyMap_singleton]
  have h3 : createSettings ρ memMongo
      ⟨[(key, stamp key 2 [("x", Value.str "y")])], "settings",
          [[⟨"settings", key, Assertion.DocMissing, some [("x", Value.str "y")], none⟩]]⟩ key
        (some [("x", Value.str "y")]) =
      ⟨none, some (SettingsError.Errorf "cannot overwrite existing settings"),
        ⟨[(key, stamp key 2 [("x", Value.str "y")])], "settings",
          [[⟨"settings", key, Assertion.DocMissing, some [("x", Value.str "y")], none⟩],
           [⟨"settings", key, Assertion.DocMissing, some [("x", Value.str "y")], none⟩]]⟩⟩ := by
    simp [createSettings, copyMap_singleton, State.run, memMongo, memRun, createSettings.ops,
      Op.holds, newSettings, hfind]
  refine ⟨_, _, _, _, h1, rfl, h2, rfl, h3, rfl, ?_, ?_, ?_⟩
  · intro what h
    cases h
  · intro cause h
    injection h with h
    exact overwrite_ne_create _ h
  · intro cause h
    injection h with h
    exact overwrite_ne_write _ h

/-- Counterexample to C10: `overwriteSettings` with `{x: "y"}` on an existing
document succeeds, replaces the document, and returns an overlay whose `core` is
`{x: "y"}` and whose `disk` is nil, so `disk` is not equal to `core`. -/
theorem C10_overwriteSettings_disk_differs_from_core :
    ∃ s st1, overwriteSettings RangeOrder.stored memMongo Example.store12 "k"
        (some [("x", Value.str "y")]) = ⟨some s, none, st1⟩ ∧
      Tbl.find st1.db "k" = some (stamp "k" 3 [("x", Value.str "y")]) ∧
      s.core = [("x", Value.str "y")] ∧ s.disk = none ∧
      ¬ Tbl.Same s.disk.tbl s.core := by
  refine ⟨_, _, rfl, rfl, rfl, rfl, ?_⟩
  intro h
  have h' := h "x"
  simp [GoMap.tbl, Tbl.find] at h'

/-- C10 as amended.  `overwriteSettings` submits exactly one operation: a
replacement of the whole document by a copy of the given mapping, guarded by
document-exists.  If the runner reports `txn.ErrAborted` it returns NotFound and
no overlay; if the transaction succeeds it returns an overlay whose `core` is the
copy of the given mapping and whose `disk` is nil. -/
theorem C10_overwriteSettings_leaves_disk_nil {σ : Type} (ρ : RangeOrder) (M : Mongo σ)
    (st : State σ) (key : String) (values : GoMap Value) :
    (overwriteSettings ρ M st key values).st.journal =
        st.journal ++ [[⟨st.settingsName, key, Assertion.DocExists, none,
          some (UpdateDoc.document (copyMap ρ values))⟩]] ∧
      Tbl.Same (copyMap ρ values) values.tbl ∧
      ((M.Run st.db [⟨st.settingsName, key, Assertion.DocExists, none,
          some (UpdateDoc.document (copyMap ρ values))⟩]).1 = some DriverError.ErrAborted →
        (overwriteSettings ρ M st key values).s = none ∧
        (overwriteSettings ρ M st key values).err = some (notFound "settings")) ∧
      ((M.Run st.db [⟨st.settingsName, key, Assertion.DocExists, none,
          some (UpdateDoc.document (copyMap ρ values))⟩]).1 = none →
        (overwriteSettings ρ M st key values).err = none ∧
        (overwriteSettings ρ M st key values).s = some ⟨key, none, copyMap ρ values, 0⟩) := by
  refine ⟨?_, fun k => find_copyMap ρ values k, ?_, ?_⟩
  · cases hrun : (M.Run st.db [⟨st.settingsName, key, Assertion.DocExists, none,
        some (UpdateDoc.document (copyMap ρ values))⟩]).1 with
    | none => simp [overwriteSettings, State.run, overwriteSettings.ops, newSettings, hrun]
    | some e =>
      cases e <;> simp [overwriteSettings, State.run, overwriteSettings.ops, newSettings, hrun]
  · intro hrun
    simp [overwriteSettings, State.run, overwriteSettings.ops, newSettings, hrun]
  · intro hrun
    simp [overwriteSettings, State.run, overwriteSettings.ops, newSettings, hrun]

/-- C11 (read).  When the store reports that the document is absent,
`readSettings` returns NotFound and no overlay, and `Read` returns NotFound.
When the document is present and its "txn-revno" field holds the int64 `r`,
`readSettings` and `Read` succeed, `disk` and `core` are equal as mappings, each
is the fetched document without the fields "_id", "txn-revno" and "txn-queue"
and with every other field kept, and `txnRevno` is `r`. -/
theorem C11_read_populates_disk_and_core {σ : Type} (ρ : RangeOrder) (M : Mongo σ)
    (st : State σ) (key : String) :
    (M.FindIdOne st.db key = .error DriverError.ErrNotFound →
      readSettings ρ M st key = .ok (none, some (notFound "settings")) ∧
      ∀ c : Settings, c.key = key →
        ∃ c', Settings.Read ρ M c st = .ok (some (notFound "settings"), c')) ∧
    (∀ doc r, M.FindIdOne st.db key = .ok doc →
      Tbl.find doc "txn-revno" = some (Value.int64 r) →
      ∃ s d, readSettings ρ M st key = .ok (some s, none) ∧
        s.key = key ∧ s.txnRevno = r ∧ s.disk = some d ∧ Tbl.Same d s.core ∧
        (∀ k, Tbl.find s.core k =
          if k = "_id" ∨ k = "txn-revno" ∨ k = "txn-queue" then none else Tbl.find doc k) ∧
        ∀ c : Settings, c.key = key →
          Settings.Read ρ M c st =
            .ok (none, { c with txnRevno := r, disk := s.disk, core := s.core })) := by
  constructor
  · intro hf
    constructor
    · unfold readSettings
      rw [Read_absent ρ M (newSettings key) st hf]
    · intro c hk
      rw [← hk] at hf
      exact ⟨_, Read_absent ρ M c st hf⟩
  · intro doc r hf hr
    refine ⟨⟨key, some (copyMap ρ (some (cleanMap doc))), copyMap ρ (some (cleanMap doc)), r⟩,
      copyMap ρ (some (cleanMap doc)), ?_, rfl, rfl, rfl, fun _ => rfl, ?_, ?_⟩
    · unfold readSettings
      rw [Read_found ρ M (newSettings key) st doc r hf hr]
      rfl
    · intro k
      exact (copyMap_same ρ (cleanMap doc) k).trans (find_cleanMap doc k)
    · intro c hk
      rw [← hk] at hf
      exact Read_found ρ M c st doc r hf hr

/-- C12 (no record with equal values).  Every record of the change list returned
by `Write`, whatever its type, has `OldValue != NewValue` in the sense of the Go
operator: the comparison `NewValue == OldValue`, and likewise
`OldValue == NewValue`, completes and is false on it.  (On float64 the operator
is the IEEE 754 comparison, so a NaN on both sides also counts as unequal.) -/
theorem C12_records_have_different_values {σ : Type} (ρ : RangeOrder) (M : Mongo σ)
    (c : Settings) (st : State σ) (r : WriteResult σ) (l : List ItemChange)
    (h : Settings.Write ρ M c st = .ok r) (hl : r.changes = some l) :
    ∀ ch ∈ l, Value.goEq ch.NewValue ch.OldValue = some false ∧
      Value.goEq ch.OldValue ch.NewValue = some false := by
  intro ch hch
  obtain ⟨d, hd, h1 | h2 | h3⟩ := Write_ok_cases ρ M c st r h
  · rw [h1.2] at hl
    injection hl with hl
    rw [← hl] at hch
    cases hch
  · rw [h2.2.2] at hl
    injection hl with hl
    rw [← hl, (itemChangeSlice.sort_perm d.changes).mem_iff] at hch
    have hr := (Write.mem_changes ρ c d hd ch).1 hch
    rcases (Write.record_iff c ch.Key ch).1 hr with ⟨o, n, _, _, hg, he⟩ | ⟨n, _, _, hg, he⟩ |
      ⟨o, _, _, hg, he⟩
    · rw [he]
      exact ⟨hg, (Value.goEq_comm o n).trans hg⟩
    · rw [he]
      exact ⟨hg, (Value.goEq_comm Value.nil n).trans hg⟩
    · rw [he]
      exact ⟨hg, (Value.goEq_comm o Value.nil).trans hg⟩
  · rw [h3.2.2.1] at hl
    cases hl

/-- Witness of C12: the edited overlay written to the store holding
`{a: 1, b: 2}`, at the record Modified(b) of the returned list. -/
theorem C12_witness :
    Value.goEq (Value.int 3) (Value.int 2) = some false ∧
      Value.goEq (Value.int 2) (Value.int 3) = some false :=
  C12_records_have_different_values RangeOrder.stored memMongo Example.edited Example.store12
    _ _ rfl rfl ⟨ItemModified, "b", Value.int 2, Value.int 3⟩
    (List.mem_cons_of_mem _ (List.mem_cons_self _ _))

/-- C13 (deep equality in the diff), evaluated where it fails.  With `disk` and
`core` both `{a: {x: 1}}` (structurally equal nested maps) `Write` does not
complete: the comparison `new == old` panics; and with `disk = {a: {x: 1}}`,
`core = {a: {x: 2}}` (structurally different nested maps) it panics as well
instead of returning a Modified record.  The same holds for two lists. -/
theorem C13_write_panics_on_composite_values :
    Settings.Write RangeOrder.stored memMongo
        ⟨"k", some [("a", Value.map [("x", Value.int 1)])],
          [("a", Value.map [("x", Value.int 1)])], 2⟩
        (memState [("k", stamp "k" 2 [("a", Value.map [("x", Value.int 1)])])]) =
      .error "runtime error: comparing uncomparable type map[string]interface {}" ∧
    Settings.Write RangeOrder.stored memMongo
        ⟨"k", some [("a", Value.map [("x", Value.int 1)])],
          [("a", Value.map [("x", Value.int 2)])], 2⟩
        (memState [("k", stamp "k" 2 [("a", Value.map [("x", Value.int 1)])])]) =
      .error "runtime error: comparing uncomparable type map[string]interface {}" ∧
    Settings.Write RangeOrder.stored memMongo
        ⟨"k", some [("a", Value.slice [Value.int 1])], [("a", Value.slice [Value.int 1])], 2⟩
        (memState [("k", stamp "k" 2 [("a", Value.slice [Value.int 1])])]) =
      .error "runtime error: comparing uncomparable type []interface {}" :=
  ⟨rfl, rfl, rfl⟩

/-- C14 (keys).  Under every iteration order, `Keys()` is strictly ascending in
string order, hence without repetition; its elements are exactly the keys of
`core`; and it is empty when `core` is empty. -/
theorem C14_keys_sorted_and_exact (ρ : RangeOrder) (c : Settings) :
    (Settings.Keys ρ c).Pairwise (fun a b => a < b) ∧
    (Settings.Keys ρ c).Nodup ∧
    (∀ k, k ∈ Settings.Keys ρ c ↔ (Settings.Get c k).2 = true) ∧
    (∀ k, k ∈ Settings.Keys ρ c ↔ ∃ v, Tbl.find c.core k = some v) ∧
    (c.core = [] → Settings.Keys ρ c = []) := by
  have hmem : ∀ k, k ∈ Settings.Keys ρ c ↔ (Tbl.find c.core k).isSome = true := by
    intro k
    rw [Keys_eq, (sortStrings_perm _).mem_iff, mem_rangeKeys, Tbl.mem_keys]
    rfl
  have hnd : (Settings.Keys ρ c).Nodup := by
    rw [Keys_eq]
    exact (sortStrings_perm _).nodup_iff.2 (nodup_rangeKeys ρ _)
  refine ⟨?_, hnd, ?_, ?_, ?_⟩
  · rw [Keys_eq]
    exact sortStrings_sorted _ (nodup_rangeKeys ρ _)
  · intro k
    rw [hmem]
    unfold Settings.Get index
    rw [GoMap.tbl_some]
    cases Tbl.find c.core k <;> simp
  · intro k
    rw [hmem, Option.isSome_iff_exists]
  · intro he
    rw [Keys_eq]
    unfold rangeKeys
    rw [GoMap.tbl_some, he]
    simp [Tbl.keys, RangeOrder.order_nil, sortStrings]

/-- C15 (laws of Get, Set, Delete and Map on `core`).  After `Set(k, v)`,
`Get(k)` is `(v, true)` and `Get` of any other key is as before; after
`Delete(k)`, `Get(k)` is `(nil, false)` and `Get` of any other key is as before;
`Delete(k)` on an overlay whose `core` lacks `k` leaves the overlay as it was;
`Map()` is equal to `core` as a mapping. -/
theorem C15_get_set_delete_laws (ρ : RangeOrder) (c : Settings) (k : String) (v : Value) :
    Settings.Get (Settings.Set c k v) k = (v, true) ∧
    (∀ k', k' ≠ k → Settings.Get (Settings.Set c k v) k' = Settings.Get c k') ∧
    Settings.Get (Settings.Delete c k) k = (Value.nil, false) ∧
    (∀ k', k' ≠ k → Settings.Get (Settings.Delete c k) k' = Settings.Get c k') ∧
    ((Settings.Get c k).2 = false → Settings.Delete c k = c) ∧
    Tbl.Same (Settings.Map ρ c) c.core := by
  refine ⟨?_, ?_, ?_, ?_, ?_, copyMap_same ρ c.core⟩
  · unfold Settings.Get Settings.Set index
    simp [GoMap.tbl_some, Tbl.find_set]
  · intro k' hk
    have hk' : ¬ k = k' := fun e => hk e.symm
    unfold Settings.Get Settings.Set index
    simp [GoMap.tbl_some, Tbl.find_set, hk']
  · unfold Settings.Get Settings.Delete index
    simp [GoMap.tbl_some, Tbl.find_del]
  · intro k' hk
    have hk' : ¬ k = k' := fun e => hk e.symm
    unfold Settings.Get Settings.Delete index
    simp [GoMap.tbl_some, Tbl.find_del, hk']
  · intro h
    have hf : Tbl.find c.core k = none := by
      unfold Settings.Get index at h
      rw [GoMap.tbl_some] at h
      cases hx : Tbl.find c.core k with
      | none => rfl
      | some w => simp [hx] at h
    unfold Settings.Delete
    rw [Tbl.del_of_find_none c.core k hf]


/-- C16 (update as a sequence of sets).  `Update(m)` gives the same `core`, as a
mapping, as `Set(k, m[k])` applied for every pair of `m` in any order (`ps` is
any rearrangement of the pairs of `m`), and the same `key`, `disk` and
`txnRevno`.  The resulting `core` maps each key of `m` to the value in `m` and
every other key to its previous value; it is the same mapping under every
iteration order; and `Update` with an empty or nil mapping leaves the overlay as
it was. -/
theorem C16_update_is_set_for_every_pair (ρ : RangeOrder) (c : Settings) (kv : GoMap Value)
    (ps : List (String × Value)) (hp : ps.Perm (GoMap.pairs kv)) :
    Tbl.Same (Settings.Update ρ c kv).core (Settings.UpdateSpec c ps).core ∧
    (Settings.Update ρ c kv).key = (Settings.UpdateSpec c ps).key ∧
    (Settings.Update ρ c kv).disk = (Settings.UpdateSpec c ps).disk ∧
    (Settings.Update ρ c kv).txnRevno = (Settings.UpdateSpec c ps).txnRevno ∧
    (∀ k, Tbl.find (Settings.Update ρ c kv).core k =
      match Tbl.find kv.tbl k with
      | some v => some v
      | none => Tbl.find c.core k) ∧
    (∀ ρ' : RangeOrder,
      Tbl.Same (Settings.Update ρ c kv).core (Settings.Update ρ' c kv).core) ∧
    (kv.tbl = [] → Settings.Update ρ c kv = c) := by
  have hn : (ps.map Prod.fst).Nodup := by
    rw [(hp.map Prod.fst).nodup_iff, map_fst_pairs]
    exact Tbl.nodup_keys _
  obtain ⟨f1, f2, f3⟩ := UpdateSpec_frame c ps
  refine ⟨?_, ?_, ?_, ?_, find_Update ρ c kv, ?_, ?_⟩
  · intro k
    rw [find_Update]
    obtain ⟨h1, h2⟩ := find_UpdateSpec c ps k hn
    cases hf : Tbl.find kv.tbl k with
    | some v =>
      exact (h1 v (hp.mem_iff.2 ((mem_pairs kv k v).2 hf))).symm
    | none =>
      refine (h2 ?_).symm
      intro v hv
      have hx := (mem_pairs kv k v).1 (hp.mem_iff.1 hv)
      rw [hf] at hx
      cases hx
  · rw [f1, Update_eq]
  · rw [f2, Update_eq]
  · rw [f3, Update_eq]
  · intro ρ' k
    rw [find_Update, find_Update]
  · intro he
    rw [Update_eq]
    unfold rangeKeys
    rw [he]
    simp [Tbl.keys, RangeOrder.order_nil]

/-- Witness of C16: `Update({x: "y", b: 9})` on the edited overlay, against `Set`
applied for the two pairs in the opposite order. -/
theorem C16_witness :
    Tbl.Same
      (Settings.Update RangeOrder.stored Example.edited
        (some [("x", Value.str "y"), ("b", Value.int 9)])).core
      (Settings.UpdateSpec Example.edited [("b", Value.int 9), ("x", Value.str "y")]).core :=
  (C16_update_is_set_for_every_pair RangeOrder.stored Example.edited
    (some [("x", Value.str "y"), ("b", Value.int 9)])
    [("b", Value.int 9), ("x", Value.str "y")] (List.Perm.swap _ _ _)).1

/-- C17 (remove), evaluated where it fails.  On a store whose `RemoveId` fails
with an error other than not-found and removes nothing, `removeSettings` returns
a nil error although the document is still there. -/
theorem C17_removeSettings_swallows_other_errors :
    (Example.failingRemove.RemoveId Example.store12.db "k").1 = some (DriverError.other "EOF") ∧
    (removeSettings Example.failingRemove Example.store12 "k").1 = none ∧
    Tbl.find (removeSettings Example.failingRemove Example.store12 "k").2.db "k" =
      some (stamp "k" 2 [("a", Value.int 1), ("b", Value.int 2)]) :=
  ⟨rfl, rfl, rfl⟩

/-- C18 (the default branch is unreachable).  For every `disk`, nil included, and
every `core`: the key set of `cacheKeys(disk, core)` is exactly the union of the
keys of `disk` and of `core`; every key the loop of `Write` visits is in `disk`
or in `core`; no iteration ends in `panic("unreachable")`; and neither the loop
nor `Write` panics with it. -/
theorem C18_unreachable_branch_never_runs (ρ : RangeOrder) (c : Settings) :
    (∀ k, k ∈ Tbl.keys (cacheKeys ρ [c.disk, some c.core]) ↔
      k ∈ Tbl.keys c.disk.tbl ∨ k ∈ Tbl.keys c.core) ∧
    (∀ key ∈ rangeKeys ρ (some (cacheKeys ρ [c.disk, some c.core])),
      (index c.disk key).2 = true ∨ (index (some c.core) key).2 = true) ∧
    (∀ acc key, Write.body c acc key ≠ .error "unreachable") ∧
    Write.loop ρ c ≠ .error "unreachable" ∧
    (∀ (σ : Type) (M : Mongo σ) (st : State σ),
      Settings.Write ρ M c st ≠ .error "unreachable") := by
  have hloop : Write.loop ρ c ≠ .error "unreachable" := by
    intro h
    obtain ⟨a, key, hb⟩ := foldlM_error (Write.body c) _ _ _ h
    exact Write.body_ne_unreachable c a key hb
  refine ⟨fun k => mem_keys_cacheKeys ρ c.disk (some c.core) k, ?_,
    Write.body_ne_unreachable c, hloop, ?_⟩
  · intro key hk
    have hm := (Write.mem_universe ρ c key).1 hk
    rcases hm with hm | hm
    · left
      obtain ⟨v, hv⟩ := Option.isSome_iff_exists.1 hm
      rw [index_of_find c.disk key v hv]
    · right
      obtain ⟨v, hv⟩ := Option.isSome_iff_exists.1 hm
      rw [index_of_find (some c.core) key v hv]
  · intro σ M st h
    exact hloop (Write_error ρ M c st _ h)

/-- C19 (mutators act on `core` only), with `disk` and `core` as references to
map objects in a heap.  For every overlay the functions of the file build
(`Made`): its two maps are allocated and are never the same map; `Set`, `Update`
and `Delete` assign no field of the struct and write the map at `core` only, so
every other map of the heap, the one at `disk` in particular, is exactly as it
was, and seen as an overlay only `core` changes, as `Set`, `Update` and `Delete`
on the overlay say; `Get` and `Keys` only read the map at `core`, and `Map`
allocates one new map and leaves every existing one as it was.  Hence after a
`Write` whose transaction succeeded, and after a `Read` that succeeded, `disk`
is a map other than `core`, equal to it as a mapping, and no `Set`, `Update` or
`Delete` that follows changes it. -/
theorem C19_mutators_leave_disk_alone (ρ : RangeOrder) (h : Heap) (c : SettingsRef)
    (k : String) (v : Value) (kv : GoMap Value) (hm : Made h c) :
    (c.core < h.objs.length ∧ ∀ a, c.disk = some a → a < h.objs.length ∧ a ≠ c.core) ∧
    (∀ a, a ≠ c.core →
      (Ref.Set h c k v).read a = h.read a ∧ (Ref.Update ρ h c kv).read a = h.read a ∧
        (Ref.Delete h c k).read a = h.read a) ∧
    (∀ a, c.disk = some a →
      (Ref.Set h c k v).read a = h.read a ∧ (Ref.Update ρ h c kv).read a = h.read a ∧
        (Ref.Delete h c k).read a = h.read a) ∧
    (c.view (Ref.Set h c k v) = Settings.Set (c.view h) k v ∧
      c.view (Ref.Update ρ h c kv) = Settings.Update ρ (c.view h) kv ∧
      c.view (Ref.Delete h c k) = Settings.Delete (c.view h) k) ∧
    (∀ h', h' = Ref.Set h c k v ∨ h' = Ref.Update ρ h c kv ∨ h' = Ref.Delete h c k →
      (c.view h').key = (c.view h).key ∧ (c.view h').disk = (c.view h).disk ∧
        (c.view h').txnRevno = (c.view h).txnRevno) ∧
    (Ref.Get h c k = Settings.Get (c.view h) k ∧ Ref.Keys ρ h c = Settings.Keys ρ (c.view h)) ∧
    (c.view (Ref.Map ρ h c).2 = c.view h ∧
      (∀ a, a < h.objs.length → (Ref.Map ρ h c).2.read a = h.read a) ∧
      (Ref.Map ρ h c).1 ≠ c.core ∧ c.disk ≠ some (Ref.Map ρ h c).1 ∧
      Tbl.Same ((Ref.Map ρ h c).2.read (Ref.Map ρ h c).1) (h.read c.core)) ∧
    (∀ (σ : Type) (M : Mongo σ) (st : State σ) (r : Ref.WriteResult σ) (l : List ItemChange),
      Ref.Write ρ M h c st = .ok r → r.changes = some l → l ≠ [] →
      ∃ a, r.c.disk = some a ∧ a ≠ r.c.core ∧ Tbl.Same (r.h.read a) (r.h.read r.c.core) ∧
        (Ref.Set r.h r.c k v).read a = r.h.read a ∧
        (Ref.Update ρ r.h r.c kv).read a = r.h.read a ∧
        (Ref.Delete r.h r.c k).read a = r.h.read a) ∧
    (∀ (σ : Type) (M : Mongo σ) (st : State σ) (c' : SettingsRef) (h' : Heap),
      Ref.Read ρ M h c st = .ok (none, c', h') →
      ∃ a, c'.disk = some a ∧ a ≠ c'.core ∧ Tbl.Same (h'.read a) (h'.read c'.core) ∧
        (Ref.Set h' c' k v).read a = h'.read a ∧
        (Ref.Update ρ h' c' kv).read a = h'.read a ∧
        (Ref.Delete h' c' k).read a = h'.read a) := by
  have hs := Made.separate h c hm
  have frame : ∀ (h0 : Heap) (c0 : SettingsRef) (a : Nat), a ≠ c0.core →
      (Ref.Set h0 c0 k v).read a = h0.read a ∧ (Ref.Update ρ h0 c0 kv).read a = h0.read a ∧
        (Ref.Delete h0 c0 k).read a = h0.read a :=
    fun h0 c0 a ha =>
      ⟨(heap_Set h0 c0 k v).2.1 a ha, (heap_Update ρ h0 c0 kv).2.1 a ha,
        (heap_Delete h0 c0 k).2.1 a ha⟩
  have hvS := view_Set h c k v hs
  have hvU := view_Update ρ h c kv hs
  have hvD := view_Delete h c k hs
  obtain ⟨m1, m2, m3, m4⟩ := view_Map ρ h c hs
  refine ⟨hs, frame h c, fun a ha => frame h c a (hs.2 a ha).2, ⟨hvS, hvU, hvD⟩, ?_,
    view_Get_Keys ρ h c k, ⟨m3, m4, ?_, ?_, ?_⟩, ?_, ?_⟩
  · intro h' hh
    rcases hh with e | e | e
    · rw [e, hvS]
      exact ⟨rfl, rfl, rfl⟩
    · rw [e, hvU, Update_eq]
      exact ⟨rfl, rfl, rfl⟩
    · rw [e, hvD]
      exact ⟨rfl, rfl, rfl⟩
  · rw [m1]
    exact Nat.ne_of_gt hs.1
  · intro e
    rw [m1] at e
    exact Nat.lt_irrefl _ (hs.2 _ e).1
  · rw [m2]
    exact copyMap_same ρ (h.read c.core)
  · intro σ M st r l hw hl hne
    have hmr : Made r.h r.c := Made.write ρ M h c st r hm hw
    rcases ref_Write_cases ρ M h c st r hw with ⟨_, _, h3 | h3⟩ | ⟨_, h2, h3⟩
    · rw [h3] at hl
      injection hl with hl
      exact absurd hl.symm hne
    · rw [h3] at hl
      cases hl
    · have hd : r.c.disk = some h.objs.length := by rw [h3]
      have hc : r.c.core = c.core := by rw [h3]
      have hne' : h.objs.length ≠ r.c.core := by
        rw [hc]
        exact Nat.ne_of_gt hs.1
      refine ⟨h.objs.length, hd, hne', ?_, frame r.h r.c _ hne'⟩
      rw [hc, h2, Heap.read_alloc_old h _ c.core hs.1, Heap.read_alloc]
      simp only [if_true]
      exact copyMap_same ρ (h.read c.core)
  · intro σ M st c' h' hr
    rcases ref_Read_cases ρ M h c st none c' h' hr with ⟨h1, _, _⟩ | ⟨h1, _, _⟩ |
      ⟨doc, revno, _, h2, h3⟩
    · exact absurd rfl h1
    · exact absurd rfl h1
    · have hd : c'.disk = some h.objs.length := by rw [h3]
      have hc : c'.core = h.objs.length + 1 := by rw [h3]
      have hne' : h.objs.length ≠ c'.core := by
        rw [hc]
        omega
      refine ⟨h.objs.length, hd, hne', ?_, frame h' c' _ hne'⟩
      rw [hc, h2, Heap.read_alloc, Heap.read_alloc, Heap.read_alloc]
      simp [Heap.alloc]
      exact fun _ => rfl

/-- Witness of C19: the overlay read from the document `{a: 1, b: 2}`: `core` is
made at address 0 by `newSettings`, and `Read` puts `disk` at address 1 and
`core` at address 2; after `Set("b", 3)` the map at `disk` is as it was. -/
theorem C19_witness :
    (Ref.Set ⟨[[], [("a", Value.int 1), ("b", Value.int 2)],
        [("a", Value.int 1), ("b", Value.int 2)]]⟩ ⟨"k", some 1, 2, 2⟩ "b" (Value.int 3)).read 1 =
      [("a", Value.int 1), ("b", Value.int 2)] ∧
    (Ref.Set ⟨[[], [("a", Value.int 1), ("b", Value.int 2)],
        [("a", Value.int 1), ("b", Value.int 2)]]⟩ ⟨"k", some 1, 2, 2⟩ "b" (Value.int 3)).read 2 =
      [("a", Value.int 1), ("b", Value.int 3)] :=
  ⟨((C19_mutators_leave_disk_alone RangeOrder.stored
      ⟨[[], [("a", Value.int 1), ("b", Value.int 2)], [("a", Value.int 1), ("b", Value.int 2)]]⟩
      ⟨"k", some 1, 2, 2⟩ "b" (Value.int 3) none
      (Made.read RangeOrder.stored memMongo (Ref.newSettings ⟨[]⟩ "k").2
        (Ref.newSettings ⟨[]⟩ "k").1 Example.store12 none _ _ (Made.newSettings ⟨[]⟩ "k")
        rfl)).2.2.1 1 rfl).1, rfl⟩

/-- C20 (the delta reproduces `core`), evaluated where it fails.  With
`disk = {d: nil}` and `core = {a: nil, b: 1}` the diff is not empty and `Write`
builds the update-set `{b: 1}` and an empty deletion-set.  Applied to a document
equal to `disk` they give `{d: nil, b: 1}`, which is not `core`: the key `a` of
`core` is missing and the key `d`, which `core` lacks, is still there. -/
theorem C20_delta_misses_nil_valued_keys :
    Write.loop RangeOrder.stored
        ⟨"k", some [("d", Value.nil)], [("a", Value.nil), ("b", Value.int 1)], 2⟩ =
      .ok ⟨[⟨ItemAdded, "b", Value.nil, Value.int 1⟩], [("b", Value.int 1)], []⟩ ∧
    applySetUnset [("d", Value.nil)] [("b", Value.int 1)] [] =
      [("d", Value.nil), ("b", Value.int 1)] ∧
    Tbl.find [("d", Value.nil), ("b", Value.int 1)] "a" = none ∧
    Tbl.find [("a", Value.nil), ("b", Value.int 1)] "a" = some Value.nil ∧
    Tbl.find [("d", Value.nil), ("b", Value.int 1)] "d" = some Value.nil ∧
    Tbl.find [("a", Value.nil), ("b", Value.int 1)] "d" = none :=
  ⟨rfl, rfl, rfl, rfl, rfl, rfl⟩

end JujuState
